import Mathlib

/-!
# Verification of the dgmjs replication bridge and constraint engine

Shallow embedding of the parts of the repository that the frozen claims
are about:

* the Yjs replication bridge (`src/packages/core/src/handlers/ellipse-handler.ts`,
  second module of the file: `getYChildren`, `getParentOrder`, `objToYObj`,
  `setParent`, `applyTransaction`, `unapplyTransaction`, `applyYjsEvent`),
* the undo path of `YjsSyncPlugin.listen`
  (`src/packages/core/src/plugins/plugin-yjs-sync.ts`),
* the constraint-resolution macros `resolveShapeConstraints` and
  `resolveAllConstraints` (`src/packages/core/src/macro.ts`).

Modelling conventions:

* JavaScript numbers are modelled as rationals (`ℚ`); the spec calls the
  order key "a real-number field".
* `Y.Map` and the store's id index are modelled as association lists that
  keep insertion order (`set` of a present key overwrites in place, `set`
  of a new key appends, iteration is list order), matching JS `Map`
  iteration semantics.
* A `yObj.get(k)` of an absent key is `none`; where the source feeds such
  a value into arithmetic (a JS `NaN`), the numeric accessor below
  defaults to `0`.  No claim's theorem depends on those branches.
* JS `splice` index normalisation (negative indices count from the end,
  overlong indices clamp) is modelled explicitly by `jsSplice1` /
  `jsInsertAt`.
-/

/-- A JSON-serializable field value stored in the replicated map. -/
inductive Value where
  | num : ℚ → Value
  | str : String → Value
  | bool : Bool → Value
  | null : Value
deriving DecidableEq, Repr

/-- Association-list lookup: the value of the first entry with the given
key (JS `Map.get`). -/
def aGet {α : Type} (l : List (String × α)) (k : String) : Option α :=
  (l.find? (fun e => e.1 == k)).map (·.2)

/-- Association-list update (JS `Map.set`): overwrite a present key in
place, append an absent key. -/
def aSet {α : Type} (l : List (String × α)) (k : String) (v : α) :
    List (String × α) :=
  if (l.find? (fun e => e.1 == k)).isSome then
    l.map (fun e => if e.1 == k then (k, v) else e)
  else
    l ++ [(k, v)]

/-- Association-list removal (JS `Map.delete`). -/
def aDelete {α : Type} (l : List (String × α)) (k : String) :
    List (String × α) :=
  l.filter (fun e => !(e.1 == k))

/-- Apply a function to the entry with the given key, if present
(arena-style stand-in for mutating a live JS object in the id index). -/
def aModify {α : Type} (l : List (String × α)) (k : String) (f : α → α) :
    List (String × α) :=
  l.map (fun e => if e.1 == k then (e.1, f e.2) else e)

/-- JS `list.indexOf(x)`: first index of `x`, `-1` if absent. -/
def idxOfZ (l : List String) (a : String) : ℤ :=
  match l.findIdx? (fun x => x == a) with
  | some i => (i : ℤ)
  | none => -1

/-- JS `list.splice(i, 1)`: remove one element at index `i`, where a
negative `i` counts from the end and indices are clamped to the list. -/
def jsSplice1 {α : Type} (l : List α) (i : ℤ) : List α :=
  let n := l.length
  let start := if i < 0 then ((n : ℤ) + i).toNat else min i.toNat n
  l.take start ++ l.drop (start + 1)

/-- JS `list.splice(i, 0, a)` for `i ≥ 0`: insert `a` at index `i`,
appending when `i` exceeds the length. -/
def jsInsertAt {α : Type} (l : List α) (i : ℕ) (a : α) : List α :=
  l.take i ++ a :: l.drop i

/-- Read an optional `Value` as a number (absent or non-numeric reads
default to `0`; in JS these branches would produce `NaN` and no claim
depends on them). -/
def numOf : Option Value → ℚ
  | some (Value.num q) => q
  | _ => 0

/-- Read an optional `Value` as a string id, `none` otherwise. -/
def strOf : Option Value → Option String
  | some (Value.str s) => some s
  | _ => none

/-- A replicated entity: a flat field map (`Y.Map<any>`). -/
def YObj := List (String × Value)
deriving DecidableEq, Repr

/-- The replicated map keyed by entity id (`Y.Map<Y.Map<any>>`). -/
def YStore := List (String × YObj)
deriving DecidableEq, Repr

/-- `getYChildren` (ellipse-handler.ts yjs module): all replicated
entities whose `parent` field equals `parentId`, in map iteration
order. -/
def getYChildren (yStore : YStore) (parentId : String) : List YObj :=
  (yStore.filter
    (fun e => decide (aGet e.2 "parent" = some (Value.str parentId)))).map (·.2)

/-- The `parent:order` keys of `getYChildren`, in the same order
(the `siblingOrders` intermediate of the source). -/
def siblingOrders (yStore : YStore) (parentId : String) : List ℚ :=
  (getYChildren yStore parentId).map (fun yObj => numOf (aGet yObj "parent:order"))

/-- `getParentOrder` (ellipse-handler.ts yjs module): order key for a
child inserted at `position` under `parentId` — `0` with no siblings,
first key minus 1 at the start, last key plus 1 past the end, and the
midpoint of the two neighbouring keys in between.  The position is an
integer because one caller (`objToYObj`) can pass a JS `indexOf`
result of `-1`. -/
def getParentOrder (yStore : YStore) (parentId : String) (position : ℤ) : ℚ :=
  let sOrders := siblingOrders yStore parentId
  if sOrders.length = 0 then 0
  else if position = 0 then sOrders.headD 0 - 1
  else if (sOrders.length : ℤ) ≤ position then sOrders.getLastD 0 + 1
  else (sOrders.getD (position - 1).toNat 0 + sOrders.getD position.toNat 0) / 2

/-- A local entity (`Obj` in `src/packages/core/src/core/obj.ts`, which is
not under `src/`; only the pieces the claims need are modelled, arena
style: parent and children are ids, plain fields an association list,
`head`/`tail` are the connector reference fields the spec singles out). -/
structure Obj where
  id : String
  parent : Option String := none
  children : List String := []
  fields : List (String × Value) := []
  head : Option String := none
  tail : Option String := none
deriving DecidableEq, Repr

/-- The store's id→entity index (`store.idIndex`). -/
def Store := List (String × Obj)
deriving DecidableEq, Repr

/-- `store.getById`. -/
def getById (store : Store) (id : String) : Option Obj :=
  aGet store id

/-- `store.addToIndex` (index only, no tree side effects). -/
def addToIndex (store : Store) (obj : Obj) : Store :=
  aSet store obj.id obj

/-- `store.removeFromIndex` (index only). -/
def removeFromIndex (store : Store) (obj : Obj) : Store :=
  aDelete store obj.id

/-- The children sequence of the entity at `id` (empty if absent). -/
def childrenOf (store : Store) (id : String) : List String :=
  match getById store id with
  | some o => o.children
  | none => []

/-- The parent back-reference of the entity at `id`. -/
def parentOf (store : Store) (id : String) : Option String :=
  (getById store id).bind (·.parent)

/-- Modelled from the spec: `obj.toJSON()` is not under `src/`.  Per §4.5
the replicated value is "a JSON-serializable projection of the entity,
plus the two structural fields `parent` and `parent:order`", so the
projection is taken to be the id, the plain fields, and the parent id
when attached. -/
def objJson (obj : Obj) : List (String × Value) :=
  (("id", Value.str obj.id) :: obj.fields) ++
    (match obj.parent with
     | some pid => [("parent", Value.str pid)]
     | none => [])

/-- `objToYObj` (ellipse-handler.ts yjs module): copy the JSON projection
into a fresh `Y.Map` and, when the entity is attached, add a
`parent:order` computed from its current position among its parent's
children (`obj.parent.children.indexOf(obj)`, looked up in the local
store since the source reads the live parent object). -/
def objToYObj (store : Store) (yStore : YStore) (obj : Obj) : YObj :=
  let base := objJson obj
  match obj.parent with
  | none => base
  | some pid =>
      let position := idxOfZ (childrenOf store pid) obj.id
      aSet base "parent:order" (Value.num (getParentOrder yStore pid position))

/-- Modelled from the spec: `store.instantiator.createFromJson` is not
under `src/`.  Per §4.5 the bridge decodes the flat field map into a new
local entity; the replicated map is keyed by entity id, the structural
fields `parent`/`parent:order` do not become plain fields, and the new
entity starts unattached (attachment is done by `setParent`). -/
def yObjToObj (key : String) (yObj : YObj) : Obj :=
  { id := key
    parent := none
    children := []
    fields := yObj.filter
      (fun e => !(e.1 == "id" || e.1 == "parent" || e.1 == "parent:order"))
    head := strOf (aGet yObj "head")
    tail := strOf (aGet yObj "tail") }

/-- Modelled from the spec: `obj.resolveRefs(store.idIndex)` is not under
`src/`.  Per §4.5/§7(c) reference fields (`head`/`tail`) are resolved
against the local id index, a missing reference resolving to null. -/
def resolveRefs (store : Store) (obj : Obj) : Obj :=
  { obj with
    head := obj.head.bind (fun h => if (getById store h).isSome then some h else none)
    tail := obj.tail.bind (fun t => if (getById store t).isSome then some t else none) }

/-- The detach step of `setParent` (ellipse-handler.ts yjs module):
when the entity had an old parent different from the new parent id,
splice it out of the old parent's children
(`obj.parent.children.splice(obj.parent.children.indexOf(obj), 1)`). -/
def setParentDetach (store : Store) (oid : String)
    (oldParent parentId : Option String) : Store :=
  match oldParent with
  | some opid =>
      if some opid ≠ parentId then
        aModify store opid
          (fun p => { p with children := jsSplice1 p.children (idxOfZ p.children oid) })
      else store
  | none => store

/-- The attach step of `setParent`: resolve the new parent in the index,
set the back reference, and if the child is not already among the
parent's children insert it before the first replicated sibling (map
iteration order) whose `parent:order` is `≥ parentOrder`, or push it at
the end; an unresolved or null parent id leaves the entity unattached. -/
def setParentAttach (store : Store) (yStore : YStore) (oid : String)
    (parentId : Option String) (parentOrder : ℚ) : Store :=
  match parentId with
  | some pid =>
      (match getById store pid with
       | some parent =>
           let store2 := aModify store oid (fun o => { o with parent := some pid })
           if oid ∈ parent.children then store2
           else
             match (siblingOrders yStore pid).findIdx? (fun o => parentOrder ≤ o) with
             | none =>
                 aModify store2 pid (fun p => { p with children := p.children ++ [oid] })
             | some i =>
                 aModify store2 pid (fun p => { p with children := jsInsertAt p.children i oid })
       | none => aModify store oid (fun o => { o with parent := none }))
  | none => aModify store oid (fun o => { o with parent := none })

/-- `setParent` (ellipse-handler.ts yjs module): detach from the old
parent when the parent changes, then attach under the new parent id. -/
def setParent (store : Store) (yStore : YStore) (oid : String)
    (parentId : Option String) (parentOrder : ℚ) : Store :=
  match getById store oid with
  | none => store
  | some obj =>
      setParentAttach (setParentDetach store oid obj.parent parentId)
        yStore oid parentId parentOrder

/-- The "key added" branch of `applyYjsEvent` (ellipse-handler.ts yjs
module): for an id not yet in the local store, decode the replicated
entity, resolve its reference fields, add it to the index, and attach it
via `setParent` using its replicated `parent`/`parent:order` fields. -/
def applyYjsAddKey (store : Store) (yStore : YStore) (key : String) : Store :=
  match getById store key, aGet yStore key with
  | none, some yObj =>
      let obj := resolveRefs store (yObjToObj key yObj)
      let store1 := addToIndex store obj
      setParent store1 yStore key (strOf (aGet yObj "parent")) (numOf (aGet yObj "parent:order"))
  | _, _ => store

/-- The "key removed" branch of `applyYjsEvent`: if a local entity
exists, splice it out of its parent's children, null its parent back
reference, and drop it from the index; otherwise do nothing. -/
def applyYjsDeleteKey (store : Store) (key : String) : Store :=
  match getById store key with
  | none => store
  | some obj =>
      let store1 :=
        match obj.parent with
        | some pid =>
            let s := aModify store pid
              (fun p => { p with children := jsSplice1 p.children (idxOfZ p.children key) })
            aModify s key (fun o => { o with parent := none })
        | none => store
      removeFromIndex store1 obj

/-- The "key updated" branch of `applyYjsEvent` for a changed `parent`
field: when the local entity and its replicated counterpart both exist,
reparent it via `setParent` from the replicated `parent`/`parent:order`
fields. -/
def applyYjsUpdateParent (store : Store) (yStore : YStore) (id : String) : Store :=
  match getById store id, aGet yStore id with
  | some _, some yObj =>
      setParent store yStore id (strOf (aGet yObj "parent")) (numOf (aGet yObj "parent:order"))
  | _, _ => store

/-- Follows the claim's words (C4), for comparison with the source: the
children sequence that would result from inserting `key` "at the
position determined by its `parent:order` key relative to the
already-materialized siblings' order keys (before the first sibling
whose order key is >= its own, at the end when there is none)". -/
def claimedAddChildren (store : Store) (yStore : YStore) (key pid : String) :
    List String :=
  let ord := numOf ((aGet yStore key).bind (fun yo => aGet yo "parent:order"))
  let cs := childrenOf store pid
  match cs.findIdx? (fun cid =>
      decide (ord ≤ numOf ((aGet yStore cid).bind (fun yo => aGet yo "parent:order")))) with
  | some i => jsInsertAt cs i key
  | none => cs ++ [key]

/-- A mutation (`src/packages/core/src/core/transaction.ts`, reached
through its use in the bridge): CREATE/DELETE carry the live object (the
bridge reads it when encoding), ASSIGN carries old/new values, ASSIGN_REF
carries old/new referenced objects (the bridge stores their ids; `none`
is a null reference), and the structural mutations carry parent id, child
id and position. -/
inductive Mutation where
  | create (obj : Obj)
  | delete (obj : Obj)
  | assign (oid field : String) (oldValue newValue : Value)
  | assignRef (oid field : String) (oldValue newValue : Option String)
  | insertChild (pid oid : String) (position : ℕ)
  | removeChild (pid oid : String) (position : ℕ)
  | reorderChild (pid oid : String) (position : ℕ)
deriving DecidableEq, Repr

/-- A transaction: an ordered sequence of mutations. -/
structure Tx where
  mutations : List Mutation
deriving DecidableEq, Repr

/-- One step of `applyTransaction` (ellipse-handler.ts yjs module): the
effect of a single forward mutation on the replicated map.  The local
store is read-only context (the source reads live objects through the
mutation).  In `INSERT_CHILD` the `parent` field is set before
`getParentOrder` runs, as in the source, so the order is computed on the
updated map. -/
def applyMutationY (store : Store) (y : YStore) : Mutation → YStore
  | Mutation.create obj => aSet y obj.id (objToYObj store y obj)
  | Mutation.delete obj => aDelete y obj.id
  | Mutation.assign oid field _ newValue =>
      match aGet y oid with
      | some yObj => aSet y oid (aSet yObj field newValue)
      | none => y
  | Mutation.assignRef oid field _ newValue =>
      match aGet y oid, newValue with
      | some yObj, some rid => aSet y oid (aSet yObj field (Value.str rid))
      | _, _ => y
  | Mutation.insertChild pid oid position =>
      match aGet y pid, aGet y oid with
      | some _, some yObj =>
          let yObj1 := aSet yObj "parent" (Value.str pid)
          let y1 := aSet y oid yObj1
          aSet y1 oid
            (aSet yObj1 "parent:order" (Value.num (getParentOrder y1 pid position)))
      | _, _ => y
  | Mutation.removeChild pid oid _ =>
      match aGet y pid, aGet y oid with
      | some _, some yObj =>
          aSet y oid (aDelete (aDelete yObj "parent") "parent:order")
      | _, _ => y
  | Mutation.reorderChild pid oid _ =>
      match aGet y pid, aGet y oid with
      | some _, some _ => y
      | _, _ => y

/-- `applyTransaction` (ellipse-handler.ts yjs module): walk the
mutations forward in order. -/
def applyTransaction (store : Store) (y : YStore) (tx : Tx) : YStore :=
  tx.mutations.foldl (applyMutationY store) y

/-- One step of `unapplyTransaction`: the logical opposite of a single
mutation on the replicated map (CREATE removes the key, DELETE re-adds
it, ASSIGN/ASSIGN_REF write the old value, INSERT_CHILD deletes the two
structural fields, REMOVE_CHILD restores them, REORDER_CHILD is the
unimplemented TODO). -/
def unapplyMutationY (store : Store) (y : YStore) : Mutation → YStore
  | Mutation.create obj => aDelete y obj.id
  | Mutation.delete obj => aSet y obj.id (objToYObj store y obj)
  | Mutation.assign oid field oldValue _ =>
      match aGet y oid with
      | some yObj => aSet y oid (aSet yObj field oldValue)
      | none => y
  | Mutation.assignRef oid field oldValue _ =>
      match aGet y oid, oldValue with
      | some yObj, some rid => aSet y oid (aSet yObj field (Value.str rid))
      | _, _ => y
  | Mutation.insertChild pid oid _ =>
      match aGet y pid, aGet y oid with
      | some _, some yObj =>
          aSet y oid (aDelete (aDelete yObj "parent") "parent:order")
      | _, _ => y
  | Mutation.removeChild pid oid position =>
      match aGet y pid, aGet y oid with
      | some _, some yObj =>
          let yObj1 := aSet yObj "parent" (Value.str pid)
          let y1 := aSet y oid yObj1
          aSet y1 oid
            (aSet yObj1 "parent:order" (Value.num (getParentOrder y1 pid position)))
      | _, _ => y
  | Mutation.reorderChild pid oid _ =>
      match aGet y pid, aGet y oid with
      | some _, some _ => y
      | _, _ => y

/-- `unapplyTransaction` (ellipse-handler.ts yjs module): walk the
mutations in reverse order, un-applying each. -/
def unapplyTransaction (store : Store) (y : YStore) (tx : Tx) : YStore :=
  tx.mutations.reverse.foldl (unapplyMutationY store) y

/-- The `onUndo` listener of `YjsSyncPlugin.listen`
(plugin-yjs-sync.ts): un-apply the action's transactions from last to
first inside one replication-level transaction. -/
def undoActionY (store : Store) (y : YStore) (txs : List Tx) : YStore :=
  txs.reverse.foldl (fun acc tx => unapplyTransaction store acc tx) y

/-- A replicated field of an entity (for stating postconditions). -/
def yFieldOf (y : YStore) (oid field : String) : Option Value :=
  (aGet y oid).bind (fun yObj => aGet yObj field)

/-- A constraint resolver as seen by `resolveShapeConstraints`
(macro.ts): the registry lookup `constraintManager.get(c.id)` composed
with the resolver call (`constraintManager` lives outside `src/`; per
§6 the registry is a plain name→resolver mapping, so the two are folded
into one function).  The resolver maps the engine state (transaction,
page, canvas — all mutable through it) to the state it leaves behind and
`some flag` when it returns, or `none` when it throws (having possibly
already mutated the state). -/
def ResolverFn (σ : Type) := σ → σ × Option Bool

/-- `resolveShapeConstraints` (macro.ts): run every constraint of one
shape in order; a throwing resolver is caught and contributes no
changed flag, the rest still run; the result is the or-combination of
the completed resolvers' flags. -/
def resolveShapeConstraints {σ : Type} (cs : List (ResolverFn σ)) (s : σ) :
    σ × Bool :=
  cs.foldl
    (fun acc c =>
      let r := c acc.1
      (r.1, (r.2.getD false) || acc.2))
    (s, false)

/-- The body of one `page.traverse` in `resolveAllConstraints`
(macro.ts): resolve every shape's constraints, or-ing the changed
flags.  A shape is represented by its constraint list. -/
def traverseShapes {σ : Type} (shapes : List (List (ResolverFn σ))) (s : σ) :
    σ × Bool :=
  shapes.foldl
    (fun acc cs =>
      let r := resolveShapeConstraints cs acc.1
      (r.1, r.2 || acc.2))
    (s, false)

/-- One full page traversal from state `s`: the page's shapes (and their
constraint lists) are read from the current state. -/
def traverseOnce {σ : Type} (shapesOf : σ → List (List (ResolverFn σ))) (s : σ) :
    σ × Bool :=
  traverseShapes (shapesOf s) s

/-- Outcome of `resolveAllConstraints`: the final engine state, the
returned boolean (`true` = "still changing", `false` = "no change"),
whether the non-fatal `console.warn` fired, and how many full page
traversals ran (instrumentation; the source performs exactly one
traversal per loop iteration). -/
structure ResolveOutcome (σ : Type) where
  state : σ
  changedResult : Bool
  warned : Bool
  traversals : ℕ
deriving Repr

/-- The `for` loop of `resolveAllConstraints` (macro.ts) with `n`
iterations left: run a traversal; if it reported no change return
`false` at once; otherwise reset the flag and continue; when the
iterations are exhausted warn and return `true`, leaving the
last-computed state. -/
def resolveLoop {σ : Type} (shapesOf : σ → List (List (ResolverFn σ))) :
    ℕ → σ → ResolveOutcome σ
  | 0, s => { state := s, changedResult := true, warned := true, traversals := 0 }
  | n + 1, s =>
      let r := traverseOnce shapesOf s
      if r.2 then
        let out := resolveLoop shapesOf n r.1
        { out with traversals := out.traversals + 1 }
      else
        { state := r.1, changedResult := false, warned := false, traversals := 1 }

/-- `resolveAllConstraints` (macro.ts); the source's default
`maxIteration` is 3. -/
def resolveAllConstraints {σ : Type} (shapesOf : σ → List (List (ResolverFn σ)))
    (maxIteration : ℕ) (s : σ) : ResolveOutcome σ :=
  resolveLoop shapesOf maxIteration s

/-- The engine state before the `(n+1)`-th traversal, iterating
`traverseOnce` without any early exit (for stating which traversal first
reports "no change"). -/
def iterState {σ : Type} (shapesOf : σ → List (List (ResolverFn σ))) (s : σ) :
    ℕ → σ
  | 0 => s
  | n + 1 => (traverseOnce shapesOf (iterState shapesOf s n)).1

/-- The changed flag reported by the `(n+1)`-th traversal. -/
def iterChanged {σ : Type} (shapesOf : σ → List (List (ResolverFn σ))) (s : σ)
    (n : ℕ) : Bool :=
  (traverseOnce shapesOf (iterState shapesOf s n)).2

/-- A replicated entity attached under `pid` with the given order key
(concrete-fixture helper). -/
def yObjP (pid : String) (q : ℚ) : YObj :=
  [("parent", Value.str pid), ("parent:order", Value.num q)]

/-- Three replicated siblings of `"p"` with order keys 0, 1, 2 (the
spec's §8 scenario). -/
def fixY3 : YStore := [("a", yObjP "p" 0), ("b", yObjP "p" 1), ("c", yObjP "p" 2)]

/-- The keys of the id index, in index order. -/
def storeKeys (store : Store) : List String := store.map (·.1)

/-- The parent/children biconditional invariant (spec §3): for every two
indexed entities, the child id appears in the parent's children sequence
exactly when the child's parent back-reference names that parent. -/
@[reducible] def bicondInv (store : Store) : Prop :=
  ∀ pk ∈ storeKeys store, ∀ ck ∈ storeKeys store,
    (ck ∈ childrenOf store pk ↔ parentOf store ck = some pk)

/-- Every indexed entity's children sequence is duplicate-free. -/
@[reducible] def childrenNodup (store : Store) : Prop :=
  ∀ k ∈ storeKeys store, (childrenOf store k).Nodup

/-- Every id in an indexed entity's children sequence is itself indexed. -/
@[reducible] def childrenIndexed (store : Store) : Prop :=
  ∀ k ∈ storeKeys store, ∀ c ∈ childrenOf store k, c ∈ storeKeys store

/-- The empty store. -/
def emptyStore : Store := ([] : List (String × Obj))

/-- Fixture: parent `P` with one attached child `A`. -/
def fixStorePA : Store :=
  [("P", { id := "P", children := ["A"] }), ("A", { id := "A", parent := some "P" })]

/-- Fixture for a remote reparent: `P` has child `A`, `Q` is empty, and
the replicated map says `A`'s parent is now `Q`. -/
def fixStoreC1 : Store :=
  [("P", { id := "P", children := ["A"] }), ("Q", { id := "Q" }),
   ("A", { id := "A", parent := some "P" })]

/-- Replicated side of the reparent fixture. -/
def fixYC1 : YStore :=
  [("P", [("id", Value.str "P")]), ("Q", [("id", Value.str "Q")]),
   ("A", [("id", Value.str "A"), ("parent", Value.str "Q"),
          ("parent:order", Value.num 0)])]

/-- Counterexample fixture: locally materialized children of `P` are
`[C, B]` with replicated order keys `-2` and `0`; the replicated map
lists the entries in the order `P, B, C, X`, and the incoming entity `X`
has order key `-1`, strictly between its neighbours' keys. -/
def cexStore : Store :=
  [("P", { id := "P", children := ["C", "B"] }),
   ("B", { id := "B", parent := some "P" }),
   ("C", { id := "C", parent := some "P" })]

/-- Replicated side of the counterexample fixture. -/
def cexY : YStore :=
  [("P", [("id", Value.str "P")]),
   ("B", yObjP "P" 0),
   ("C", yObjP "P" (-2)),
   ("X", yObjP "P" (-1))]

/-- Replicated side of `fixStorePA`: the attached child `A` plus a
fresh unattached entity `N` not yet materialized locally. -/
def fixYPA : YStore := [("A", yObjP "P" 0), ("N", [("f", Value.num 1)])]

/-- Fixture resolver: reports a change and decrements until the state
reaches 0, then reports no change. -/
def decResolver : ResolverFn ℕ :=
  fun s => if s = 0 then (s, some false) else (s - 1, some true)

/-- Fixture resolver that throws after mutating the state. -/
def throwResolver : ResolverFn ℕ := fun s => (s + 10, none)

/-- Fixture resolver that mutates and reports a change. -/
def incResolver : ResolverFn ℕ := fun s => (s + 1, some true)

/-- Fixture page: a single shape whose only constraint is `decResolver`. -/
def fixShapesOf : ℕ → List (List (ResolverFn ℕ)) := fun _ => [[decResolver]]

/-- Order-key divergence fixture: parent `"p"` replicated together with
children `a`, `b`, `c` whose map iteration order matches the children
sequence, ascending order keys 0, 2, 4, plus a freshly created, not yet
attached entity `"x"` (the state right after the CREATE mutation of an
insert step). -/
def cexY6 : YStore :=
  [("p", ([] : YObj)), ("a", yObjP "p" 0), ("b", yObjP "p" 2),
   ("c", yObjP "p" 4), ("x", ([] : YObj))]

/-- The replicated map after the bridge encodes `INSERT_CHILD x` at
children position 1 (between `a`, key 0, and `b`, key 2) on `cexY6`:
`x` receives the midpoint key 1 but its map entry stays last, so the
map iteration order of the sibling keys becomes `[0, 2, 4, 1]` while
the children sequence `[a, x, b, c]` carries the ascending keys
`[0, 1, 2, 4]`. -/
def cexY6after : YStore :=
  applyMutationY emptyStore cexY6 (Mutation.insertChild "p" "x" 1)

section AssocLemmas

variable {α : Type}

theorem find?_map_set (l : List (String × α)) (k : String) (v : α) :
    (l.map (fun e => if e.1 == k then (k, v) else e)).find? (fun e => e.1 == k)
      = (l.find? (fun e => e.1 == k)).map (fun _ => (k, v)) := by
  induction l with
  | nil => rfl
  | cons e l ih =>
    simp only [List.map_cons]
    by_cases he : e.1 = k
    · rw [if_pos (by simp [he]), List.find?_cons_of_pos _ (by simp),
        List.find?_cons_of_pos _ (by simp [he])]
      rfl
    · rw [if_neg (by simp [he]), List.find?_cons_of_neg _ (by simp [he]),
        List.find?_cons_of_neg _ (by simp [he])]
      exact ih

theorem find?_map_set_ne (l : List (String × α)) (k k' : String) (v : α)
    (h : k' ≠ k) :
    (l.map (fun e => if e.1 == k then (k, v) else e)).find? (fun e => e.1 == k')
      = l.find? (fun e => e.1 == k') := by
  induction l with
  | nil => rfl
  | cons e l ih =>
    simp only [List.map_cons]
    by_cases he : e.1 = k
    · have hne : ¬ e.1 = k' := by rw [he]; exact fun hkk => h hkk.symm
      rw [if_pos (by simp [he]), List.find?_cons_of_neg _ (by simp [Ne.symm h]),
        List.find?_cons_of_neg _ (by simp [hne])]
      exact ih
    · by_cases he' : e.1 = k'
      · rw [if_neg (by simp [he]), List.find?_cons_of_pos _ (by simp [he']),
          List.find?_cons_of_pos _ (by simp [he'])]
      · rw [if_neg (by simp [he]), List.find?_cons_of_neg _ (by simp [he']),
          List.find?_cons_of_neg _ (by simp [he'])]
        exact ih

theorem find?_filter_self (l : List (String × α)) (k : String) :
    (l.filter (fun e => !(e.1 == k))).find? (fun e => e.1 == k) = none := by
  induction l with
  | nil => rfl
  | cons e l ih =>
    by_cases he : e.1 = k
    · rw [List.filter_cons_of_neg (by simp [he])]
      exact ih
    · rw [List.filter_cons_of_pos (by simp [he]),
        List.find?_cons_of_neg _ (by simp [he])]
      exact ih

theorem find?_filter_ne (l : List (String × α)) (k k' : String) (h : k' ≠ k) :
    (l.filter (fun e => !(e.1 == k))).find? (fun e => e.1 == k')
      = l.find? (fun e => e.1 == k') := by
  induction l with
  | nil => rfl
  | cons e l ih =>
    by_cases he : e.1 = k
    · have hne : ¬ e.1 = k' := by rw [he]; exact fun hkk => h hkk.symm
      rw [List.filter_cons_of_neg (by simp [he]),
        List.find?_cons_of_neg _ (by simp [hne])]
      exact ih
    · by_cases he' : e.1 = k'
      · rw [List.filter_cons_of_pos (by simp [he]),
          List.find?_cons_of_pos _ (by simp [he']),
          List.find?_cons_of_pos _ (by simp [he'])]
      · rw [List.filter_cons_of_pos (by simp [he]),
          List.find?_cons_of_neg _ (by simp [he']),
          List.find?_cons_of_neg _ (by simp [he'])]
        exact ih

theorem find?_map_modify (l : List (String × α)) (k : String) (f : α → α) :
    (l.map (fun e => if e.1 == k then (e.1, f e.2) else e)).find? (fun e => e.1 == k)
      = (l.find? (fun e => e.1 == k)).map (fun e => (e.1, f e.2)) := by
  induction l with
  | nil => rfl
  | cons e l ih =>
    simp only [List.map_cons]
    by_cases he : e.1 = k
    · rw [if_pos (by simp [he]), List.find?_cons_of_pos _ (by simp [he]),
        List.find?_cons_of_pos _ (by simp [he])]
      rfl
    · rw [if_neg (by simp [he]), List.find?_cons_of_neg _ (by simp [he]),
        List.find?_cons_of_neg _ (by simp [he])]
      exact ih

theorem find?_map_modify_ne (l : List (String × α)) (k k' : String) (f : α → α)
    (h : k' ≠ k) :
    (l.map (fun e => if e.1 == k then (e.1, f e.2) else e)).find? (fun e => e.1 == k')
      = l.find? (fun e => e.1 == k') := by
  induction l with
  | nil => rfl
  | cons e l ih =>
    simp only [List.map_cons]
    by_cases he : e.1 = k
    · have hne : ¬ e.1 = k' := by rw [he]; exact fun hkk => h hkk.symm
      rw [if_pos (by simp [he]), List.find?_cons_of_neg _ (by simp [hne]),
        List.find?_cons_of_neg _ (by simp [hne])]
      exact ih
    · by_cases he' : e.1 = k'
      · rw [if_neg (by simp [he]), List.find?_cons_of_pos _ (by simp [he']),
          List.find?_cons_of_pos _ (by simp [he'])]
      · rw [if_neg (by simp [he]), List.find?_cons_of_neg _ (by simp [he']),
          List.find?_cons_of_neg _ (by simp [he'])]
        exact ih

theorem aGet_aSet_self (l : List (String × α)) (k : String) (v : α) :
    aGet (aSet l k v) k = some v := by
  unfold aGet aSet
  by_cases hl : (l.find? (fun e => e.1 == k)).isSome
  · rw [if_pos hl, find?_map_set]
    obtain ⟨e, he⟩ := Option.isSome_iff_exists.mp hl
    simp [he]
  · rw [if_neg hl, List.find?_append]
    have hnone : l.find? (fun e => e.1 == k) = none :=
      Option.not_isSome_iff_eq_none.mp hl
    simp [hnone, List.find?_cons]

theorem aGet_aSet_ne (l : List (String × α)) (k k' : String) (v : α)
    (h : k' ≠ k) : aGet (aSet l k v) k' = aGet l k' := by
  unfold aGet aSet
  by_cases hl : (l.find? (fun e => e.1 == k)).isSome
  · rw [if_pos hl, find?_map_set_ne l k k' v h]
  · rw [if_neg hl, List.find?_append]
    simp [List.find?_cons, Ne.symm h]

theorem aGet_aDelete_self (l : List (String × α)) (k : String) :
    aGet (aDelete l k) k = none := by
  unfold aGet aDelete
  rw [find?_filter_self]
  rfl

theorem aGet_aDelete_ne (l : List (String × α)) (k k' : String) (h : k' ≠ k) :
    aGet (aDelete l k) k' = aGet l k' := by
  unfold aGet aDelete
  rw [find?_filter_ne l k k' h]

theorem aGet_aModify_self (l : List (String × α)) (k : String) (f : α → α) :
    aGet (aModify l k f) k = (aGet l k).map f := by
  unfold aGet aModify
  rw [find?_map_modify]
  obtain he | ⟨e, he⟩ := Option.eq_none_or_eq_some (l.find? (fun e => e.1 == k))
  · simp [he]
  · have hek : e.1 = k := by simpa using List.find?_some he
    simp [he, hek]

theorem aGet_aModify_ne (l : List (String × α)) (k k' : String) (f : α → α)
    (h : k' ≠ k) : aGet (aModify l k f) k' = aGet l k' := by
  unfold aGet aModify
  rw [find?_map_modify_ne l k k' f h]

end AssocLemmas

section SpliceLemmas

theorem jsSplice1_idxOfZ_of_mem (l : List String) (a : String) (h : a ∈ l) :
    jsSplice1 l (idxOfZ l a) = l.erase a := by
  induction l with
  | nil => cases h
  | cons e l ih =>
    by_cases he : e = a
    · have hidx : idxOfZ (e :: l) a = 0 := by
        simp [idxOfZ, List.findIdx?_cons, he]
      rw [hidx]
      simp [jsSplice1, List.erase_cons, he]
    · have hmem : a ∈ l := by
        cases List.mem_cons.mp h with
        | inl h' => exact absurd h'.symm he
        | inr h' => exact h'
      obtain ⟨j, hj⟩ : ∃ j, l.findIdx? (fun x => x == a) = some j :=
        Option.isSome_iff_exists.mp
          (by rw [List.findIdx?_isSome]; exact List.any_eq_true.mpr ⟨a, hmem, by simp⟩)
      have hjlt : j < l.length := (List.findIdx?_eq_some_iff_getElem.mp hj).1
      have hidx : idxOfZ (e :: l) a = (j : ℤ) + 1 := by
        simp [idxOfZ, List.findIdx?_cons, he, List.findIdx?_succ, hj]
      have hidxl : idxOfZ l a = (j : ℤ) := by simp [idxOfZ, hj]
      rw [hidx]
      have h1 : ¬ ((j : ℤ) + 1 < 0) := by omega
      have h2 : ((j : ℤ) + 1).toNat = j + 1 := by omega
      have h3 : ¬ ((j : ℤ) < 0) := by omega
      have h4 : ((j : ℤ)).toNat = j := by omega
      simp only [jsSplice1, if_neg h1, h2, List.length_cons] at *
      rw [min_eq_left (by omega)]
      simp only [List.take_succ_cons, List.drop_succ_cons, List.cons_append]
      have := ih hmem
      rw [hidxl] at this
      simp only [jsSplice1, if_neg h3, h4] at this
      rw [min_eq_left (by omega)] at this
      rw [this, List.erase_cons_tail]
      simp [he]

theorem mem_jsInsertAt {α : Type} (l : List α) (i : ℕ) (a x : α) :
    x ∈ jsInsertAt l i a ↔ x = a ∨ x ∈ l := by
  unfold jsInsertAt
  constructor
  · intro hx
    rcases List.mem_append.mp hx with h | h
    · exact Or.inr (List.mem_of_mem_take h)
    · rcases List.mem_cons.mp h with h | h
      · exact Or.inl h
      · exact Or.inr (List.mem_of_mem_drop h)
  · intro hx
    rcases hx with h | h
    · exact List.mem_append.mpr (Or.inr (by rw [h]; exact List.mem_cons_self a _))
    · have : x ∈ l.take i ++ l.drop i := by
        rw [List.take_append_drop]; exact h
      rcases List.mem_append.mp this with h' | h'
      · exact List.mem_append.mpr (Or.inl h')
      · exact List.mem_append.mpr (Or.inr (List.mem_cons_of_mem _ h'))

end SpliceLemmas

/-- C3: For an INSERT_CHILD encoded by the Replication Bridge, the order
key computed by `getParentOrder` against sibling order keys `os` is: the
midpoint of the two neighbouring keys for an insertion strictly between
existing siblings, the first key minus 1 at the start, the last key plus
1 at the end, and 0 for the first child of a parent with no other
children. -/
theorem getParentOrder_midpoint_spec (yStore : YStore) (pid : String)
    (os : List ℚ) (position : ℕ) (hos : siblingOrders yStore pid = os) :
    (os = [] → getParentOrder yStore pid (position : ℤ) = 0) ∧
    (position = 0 → os ≠ [] →
        getParentOrder yStore pid (position : ℤ) = os.headD 0 - 1) ∧
    (os.length ≤ position → os ≠ [] →
        getParentOrder yStore pid (position : ℤ) = os.getLastD 0 + 1) ∧
    (0 < position → position < os.length →
        getParentOrder yStore pid (position : ℤ)
          = (os.getD (position - 1) 0 + os.getD position 0) / 2) := by
  refine ⟨?_, ?_, ?_, ?_⟩
  · intro h
    simp [getParentOrder, hos, h]
  · intro hpos hne
    have hlen : ¬ os.length = 0 := by simpa [List.length_eq_zero] using hne
    simp [getParentOrder, hos, hlen, hpos]
  · intro hge hne
    have hlen : ¬ os.length = 0 := by simpa [List.length_eq_zero] using hne
    have hp0 : ¬ ((position : ℤ) = 0) := by omega
    have hle : ((os.length : ℤ) ≤ (position : ℤ)) := by exact_mod_cast hge
    simp [getParentOrder, hos, hlen, hp0, hle]
  · intro h0 hlt
    have hlen : ¬ os.length = 0 := by omega
    have hp0 : ¬ ((position : ℤ) = 0) := by omega
    have hle : ¬ ((os.length : ℤ) ≤ (position : ℤ)) := by exact_mod_cast not_le.mpr hlt
    have ht1 : ((position : ℤ) - 1).toNat = position - 1 := by omega
    have ht2 : ((position : ℤ)).toNat = position := by omega
    simp [getParentOrder, hos, hlen, hp0, hle, ht1, ht2]

/-- Witness for C3 at the spec's §8 scenario: siblings with order keys
[0, 1, 2], insertion at position 1 yields order key 1/2. -/
theorem getParentOrder_midpoint_spec_witness :
    siblingOrders fixY3 "p" = [0, 1, 2] ∧
    getParentOrder fixY3 "p" ((1 : ℕ) : ℤ) = 1 / 2 := by
  have h := getParentOrder_midpoint_spec fixY3 "p" [0, 1, 2] 1 (by decide)
  refine ⟨by decide, ?_⟩
  have := h.2.2.2 (by decide) (by decide)
  simpa using this

section SortedHelpers

theorem pairwise_jsInsertAt (os : List ℚ) (pos : ℕ) (v : ℚ)
    (hs : os.Pairwise (· < ·))
    (hlo : ∀ x ∈ os.take pos, x < v)
    (hhi : ∀ x ∈ os.drop pos, v < x) :
    (jsInsertAt os pos v).Pairwise (· < ·) := by
  induction os generalizing pos with
  | nil => simp [jsInsertAt]
  | cons e os ih =>
    cases pos with
    | zero =>
      simp only [jsInsertAt, List.take_zero, List.drop_zero, List.nil_append]
      exact List.Pairwise.cons (fun x hx => hhi x (by simpa using hx)) hs
    | succ p =>
      simp only [jsInsertAt, List.take_succ_cons, List.drop_succ_cons, List.cons_append]
      have hs' := List.pairwise_cons.mp hs
      refine List.Pairwise.cons ?_ ?_
      · intro x hx
        rcases List.mem_append.mp hx with h | h
        · exact hs'.1 x (List.mem_of_mem_take h)
        · rcases List.mem_cons.mp h with h | h
          · rw [h]; exact hlo e (by simp)
          · exact hs'.1 x (List.mem_of_mem_drop h)
      · exact ih p hs'.2 (fun x hx => hlo x (by simp [hx]))
          (fun x hx => hhi x (by simpa using hx))

theorem mem_take_le_getD (os : List ℚ) (hsort : os.Pairwise (· < ·)) (pos : ℕ)
    (hpos : 0 < pos) (hle : pos ≤ os.length) (x : ℚ) (hx : x ∈ os.take pos) :
    x ≤ os.getD (pos - 1) 0 := by
  obtain ⟨i, hi, hix⟩ := List.mem_iff_getElem.mp hx
  have hilt : i < pos := by
    have := hi
    simp only [List.length_take] at this
    omega
  have hilen : i < os.length := by omega
  have hval : (os.take pos)[i] = os[i] := by rw [List.getElem_take]
  have hb1 : pos - 1 < os.length := by omega
  have hgd : os.getD (pos - 1) 0 = os[pos - 1] :=
    List.getD_eq_getElem os 0 hb1
  rw [hgd, ← hix, hval]
  rcases Nat.lt_or_ge i (pos - 1) with h | h
  · exact le_of_lt ((List.pairwise_iff_getElem.mp hsort) i (pos - 1) hilen (by omega) h)
  · have : i = pos - 1 := by omega
    subst this
    exact le_refl _

theorem getD_le_mem_drop (os : List ℚ) (hsort : os.Pairwise (· < ·)) (pos : ℕ)
    (hlt : pos < os.length) (x : ℚ) (hx : x ∈ os.drop pos) :
    os.getD pos 0 ≤ x := by
  obtain ⟨i, hi, hix⟩ := List.mem_iff_getElem.mp hx
  have hlen : (os.drop pos).length = os.length - pos := List.length_drop _ _
  have hb1 : pos + i < os.length := by simp only [hlen] at hi; omega
  have hval : (os.drop pos)[i] = os[pos + i] := by
    rw [List.getElem_drop]
  have hgd : os.getD pos 0 = os[pos] := List.getD_eq_getElem os 0 hlt
  rw [hgd, ← hix, hval]
  rcases Nat.eq_zero_or_pos i with h | h
  · subst h; simp
  · exact le_of_lt ((List.pairwise_iff_getElem.mp hsort) pos (pos + i)
      hlt (by simp only [hlen] at hi; omega) (by omega))

theorem mem_le_getLastD (os : List ℚ) (hsort : os.Pairwise (· < ·))
    (hne : os ≠ []) (x : ℚ) (hx : x ∈ os) : x ≤ os.getLastD 0 := by
  obtain ⟨i, hi, hix⟩ := List.mem_iff_getElem.mp hx
  have hb1 : os.length - 1 < os.length := by
    have := List.length_pos.mpr hne; omega
  have hlast : os.getLastD 0 = os[os.length - 1] := by
    rw [List.getLastD_eq_getLast?, List.getLast?_eq_getElem?]
    simp [List.getElem?_eq_getElem (by have := List.length_pos.mpr hne; omega : os.length - 1 < os.length)]
  rw [hlast, ← hix]
  rcases Nat.lt_or_ge i (os.length - 1) with h | h
  · exact le_of_lt ((List.pairwise_iff_getElem.mp hsort) i (os.length - 1)
      hi (by omega) h)
  · have : i = os.length - 1 := by omega
    subst this
    exact le_refl _

theorem headD_le_mem (os : List ℚ) (hsort : os.Pairwise (· < ·))
    (x : ℚ) (hx : x ∈ os) : os.headD 0 ≤ x := by
  obtain ⟨i, hi, hix⟩ := List.mem_iff_getElem.mp hx
  have hb1 : 0 < os.length := by omega
  have hhead : os.headD 0 = os[0] := by
    cases os with
    | nil => simp at hi
    | cons e os => rfl
  rw [hhead, ← hix]
  rcases Nat.eq_zero_or_pos i with h | h
  · subst h; exact le_refl _
  · exact le_of_lt ((List.pairwise_iff_getElem.mp hsort) 0 i (by omega) hi h)

end SortedHelpers

/-- Counterexample for C6 as stated: `getParentOrder` indexes the
insertion position into the map-iteration-order sibling keys
(`siblingOrders`, from `getYChildren(yStore)`), not into the parent's
children sequence, and the two diverge in states the bridge itself
produces.  Starting from `cexY6` (map order = children order, keys
0, 2, 4), the bridge's own `INSERT_CHILD` at position 1 yields
`cexY6after`: `x` gets the midpoint key 1 but is appended last in the
map, so the children sequence `[a, x, b, c]` carries strictly ascending
keys `[0, 1, 2, 4]` while map iteration order carries `[0, 2, 4, 1]`.
A further insertion at children position 2 — left neighbour `x` (key
1), right neighbour `b` (key 2) — then computes `(2 + 4) / 2 = 3`,
which is not strictly between its neighbours' keys, and placing key 3
at position 2 of the children key sequence breaks the
ascending-key-matches-ascending-position invariant. -/
theorem orderKey_between_children_neighbors_cex :
    cexY6after = aSet cexY6 "x" (yObjP "p" 1) ∧
    List.map (fun cid => numOf (yFieldOf cexY6after cid "parent:order"))
        ["a", "x", "b", "c"] = [0, 1, 2, 4] ∧
    ([0, 1, 2, 4] : List ℚ).Pairwise (fun a b : ℚ => a < b) ∧
    siblingOrders cexY6after "p" = [0, 2, 4, 1] ∧
    getParentOrder cexY6after "p" ((2 : ℕ) : ℤ) = 3 ∧
    ¬ (numOf (yFieldOf cexY6after "x" "parent:order")
          < getParentOrder cexY6after "p" ((2 : ℕ) : ℤ) ∧
        getParentOrder cexY6after "p" ((2 : ℕ) : ℤ)
          < numOf (yFieldOf cexY6after "b" "parent:order")) ∧
    ¬ (jsInsertAt [0, 1, 2, 4] 2
        (getParentOrder cexY6after "p" ((2 : ℕ) : ℤ))).Pairwise
        (fun a b : ℚ => a < b) := by
  have hget1 : aGet cexY6 "p" = some ([] : YObj) := by decide
  have hget2 : aGet cexY6 "x" = some ([] : YObj) := by decide
  have hso1 : siblingOrders
      (aSet cexY6 "x" (aSet ([] : YObj) "parent" (Value.str "p"))) "p"
      = [0, 2, 4, 0] := by decide
  have h1 : getParentOrder
      (aSet cexY6 "x" (aSet ([] : YObj) "parent" (Value.str "p"))) "p"
      ((1 : ℕ) : ℤ) = 1 := by
    simp only [getParentOrder, hso1]
    norm_num
  have hstep : cexY6after = aSet cexY6 "x" (yObjP "p" 1) := by
    unfold cexY6after
    simp only [applyMutationY, hget1, hget2]
    rw [h1]
    decide
  have h2 : siblingOrders (aSet cexY6 "x" (yObjP "p" 1)) "p"
      = [0, 2, 4, 1] := by decide
  have h3 : getParentOrder (aSet cexY6 "x" (yObjP "p" 1)) "p"
      ((2 : ℕ) : ℤ) = 3 := by
    have ht1 : (((2 : ℕ) : ℤ) - 1).toNat = 1 := by decide
    have ht2 : ((2 : ℕ) : ℤ).toNat = 2 := by decide
    simp only [getParentOrder, h2, ht1, ht2]
    norm_num [List.getD_cons_zero, List.getD_cons_succ]
  refine ⟨hstep, ?_, by decide, ?_, ?_, ?_, ?_⟩
  · rw [hstep]; decide
  · rw [hstep]; exact h2
  · rw [hstep]; exact h3
  · rw [hstep, h3]; decide
  · rw [hstep, h3]; decide

/-- C6 (amended): the position `getParentOrder` receives indexes the
replicated map's iteration order of the parent's siblings
(`getYChildren`), not `parent.children`; whenever that
map-iteration-order key sequence is strictly ascending — which holds
exactly while map order agrees with the children sequence — the
computed key is strictly between its two neighbours' keys (strictly
beyond the single neighbour at either end), and inserting it at the
insertion position keeps the order-key sequence strictly ascending, so
ascending order key matches ascending position.  Once the two orders
diverge (reachable by the bridge's own mid-sequence insertions, which
append the new entry to the map) the between-neighbours property fails,
as the counterexample above shows. -/
theorem getParentOrder_strictly_between (yStore : YStore) (pid : String)
    (os : List ℚ) (position : ℕ) (hos : siblingOrders yStore pid = os)
    (hsort : os.Pairwise (· < ·)) :
    (0 < position → position < os.length →
        os.getD (position - 1) 0 < getParentOrder yStore pid (position : ℤ) ∧
        getParentOrder yStore pid (position : ℤ) < os.getD position 0) ∧
    (position = 0 → os ≠ [] →
        getParentOrder yStore pid (position : ℤ) < os.headD 0) ∧
    (os.length ≤ position → os ≠ [] →
        os.getLastD 0 < getParentOrder yStore pid (position : ℤ)) ∧
    (jsInsertAt os position (getParentOrder yStore pid (position : ℤ))).Pairwise (· < ·) := by
  have hmid : 0 < position → position < os.length →
      getParentOrder yStore pid (position : ℤ)
        = (os.getD (position - 1) 0 + os.getD position 0) / 2 := by
    intro h0 hlt
    have hlen : ¬ os.length = 0 := by omega
    have hp0 : ¬ ((position : ℤ) = 0) := by omega
    have hle : ¬ ((os.length : ℤ) ≤ (position : ℤ)) := by exact_mod_cast not_le.mpr hlt
    have ht1 : ((position : ℤ) - 1).toNat = position - 1 := by omega
    have ht2 : ((position : ℤ)).toNat = position := by omega
    simp [getParentOrder, hos, hlen, hp0, hle, ht1, ht2]
  have hzero : position = 0 → os ≠ [] →
      getParentOrder yStore pid (position : ℤ) = os.headD 0 - 1 := by
    intro hpos hne
    have hlen : ¬ os.length = 0 := by simpa [List.length_eq_zero] using hne
    simp [getParentOrder, hos, hlen, hpos]
  have hend : os.length ≤ position → os ≠ [] →
      getParentOrder yStore pid (position : ℤ) = os.getLastD 0 + 1 := by
    intro hge hne
    have hlen : ¬ os.length = 0 := by simpa [List.length_eq_zero] using hne
    have hp0 : ¬ ((position : ℤ) = 0) := by omega
    have hle : ((os.length : ℤ) ≤ (position : ℤ)) := by exact_mod_cast hge
    simp [getParentOrder, hos, hlen, hp0, hle]
  have hneighbors : 0 < position → position < os.length →
      os.getD (position - 1) 0 < os.getD position 0 := by
    intro h0 hlt
    have hb1 : position - 1 < os.length := by omega
    have h1 : os.getD (position - 1) 0 = os[position - 1] :=
      List.getD_eq_getElem os 0 hb1
    have h2 : os.getD position 0 = os[position] :=
      List.getD_eq_getElem os 0 hlt
    rw [h1, h2]
    exact (List.pairwise_iff_getElem.mp hsort) _ _ (by omega) hlt (by omega)
  refine ⟨?_, ?_, ?_, ?_⟩
  · intro h0 hlt
    have heq := hmid h0 hlt
    have hn := hneighbors h0 hlt
    constructor <;> rw [heq] <;> linarith
  · intro hpos hne
    rw [hzero hpos hne]
    have : os.headD 0 ∈ os := by
      cases os with
      | nil => exact absurd rfl hne
      | cons e os => exact List.mem_cons_self _ _
    linarith
  · intro hge hne
    rw [hend hge hne]
    linarith
  · by_cases hnilc : os = []
    · subst hnilc
      simp [jsInsertAt]
    · by_cases h0 : position = 0
      · apply pairwise_jsInsertAt os position _ hsort
        · subst h0; simp
        · intro x hx
          subst h0
          rw [hzero rfl hnilc]
          have hhx : os.headD 0 ≤ x := headD_le_mem os hsort x (by simpa using hx)
          linarith
      · by_cases hge : os.length ≤ position
        · apply pairwise_jsInsertAt os position _ hsort
          · intro x hx
            rw [hend hge hnilc]
            have := mem_le_getLastD os hsort hnilc x (List.mem_of_mem_take hx)
            linarith
          · intro x hx
            rw [List.drop_eq_nil_of_le hge] at hx
            cases hx
        · have hlt : position < os.length := by omega
          have hp0 : 0 < position := by omega
          apply pairwise_jsInsertAt os position _ hsort
          · intro x hx
            rw [hmid hp0 hlt]
            have h1 := mem_take_le_getD os hsort position hp0 (by omega) x hx
            have hn := hneighbors hp0 hlt
            linarith
          · intro x hx
            rw [hmid hp0 hlt]
            have h1 := getD_le_mem_drop os hsort position hlt x hx
            have hn := hneighbors hp0 hlt
            linarith

/-- Witness for C6: siblings with keys [0, 1, 2], insertion at position
1; the computed key lies strictly between 0 and 1 and the extended key
sequence is strictly ascending. -/
theorem getParentOrder_strictly_between_witness :
    siblingOrders fixY3 "p" = [0, 1, 2] ∧
    (0 : ℚ) < getParentOrder fixY3 "p" ((1 : ℕ) : ℤ) ∧
    getParentOrder fixY3 "p" ((1 : ℕ) : ℤ) < 1 ∧
    (jsInsertAt [0, 1, 2] 1 (getParentOrder fixY3 "p" ((1 : ℕ) : ℤ))).Pairwise
      (fun a b : ℚ => a < b) := by
  have h := getParentOrder_strictly_between fixY3 "p" [0, 1, 2] 1 (by decide) (by decide)
  have hm := h.1 (by decide) (by decide)
  refine ⟨by decide, ?_, ?_, h.2.2.2⟩
  · have hg : ([0, 1, 2] : List ℚ).getD 0 0 = 0 := by decide
    rw [hg] at hm
    exact hm.1
  · have hg : ([0, 1, 2] : List ℚ).getD 1 0 = 1 := by decide
    rw [hg] at hm
    exact hm.2

/-- C10: `applyTransaction`/`unapplyTransaction` on the replicated map
are total functions of their inputs (no branch can throw): every branch
that reads existing entries (ASSIGN, ASSIGN_REF, INSERT_CHILD,
REMOVE_CHILD, REORDER_CHILD) first checks that the replicated map
contains the involved entity ids — and, for ASSIGN_REF, that the
reference is non-null — and otherwise skips the mutation leaving the
replicated map unchanged; in particular an ASSIGN_REF whose new
(respectively, for the inverse direction, old) reference is null leaves
the previously stored referenced id in place rather than clearing it. -/
theorem bridge_apply_total_skip_spec (store : Store) (y : YStore) :
    (∀ oid field ov nv, aGet y oid = none →
        applyMutationY store y (Mutation.assign oid field ov nv) = y) ∧
    (∀ oid field ov, applyMutationY store y (Mutation.assignRef oid field ov none) = y) ∧
    (∀ oid field ov, yFieldOf (applyMutationY store y (Mutation.assignRef oid field ov none)) oid field
        = yFieldOf y oid field) ∧
    (∀ oid field ov rid, aGet y oid = none →
        applyMutationY store y (Mutation.assignRef oid field ov (some rid)) = y) ∧
    (∀ pid oid pos, aGet y pid = none ∨ aGet y oid = none →
        applyMutationY store y (Mutation.insertChild pid oid pos) = y) ∧
    (∀ pid oid pos, aGet y pid = none ∨ aGet y oid = none →
        applyMutationY store y (Mutation.removeChild pid oid pos) = y) ∧
    (∀ pid oid pos, applyMutationY store y (Mutation.reorderChild pid oid pos) = y) ∧
    (∀ oid field ov nv, aGet y oid = none →
        unapplyMutationY store y (Mutation.assign oid field ov nv) = y) ∧
    (∀ oid field nv, unapplyMutationY store y (Mutation.assignRef oid field none nv) = y) ∧
    (∀ oid field nv, yFieldOf (unapplyMutationY store y (Mutation.assignRef oid field none nv)) oid field
        = yFieldOf y oid field) ∧
    (∀ oid field ov nv, aGet y oid = none →
        unapplyMutationY store y (Mutation.assignRef oid field ov nv) = y) ∧
    (∀ pid oid pos, aGet y pid = none ∨ aGet y oid = none →
        unapplyMutationY store y (Mutation.insertChild pid oid pos) = y) ∧
    (∀ pid oid pos, aGet y pid = none ∨ aGet y oid = none →
        unapplyMutationY store y (Mutation.removeChild pid oid pos) = y) ∧
    (∀ pid oid pos, unapplyMutationY store y (Mutation.reorderChild pid oid pos) = y) := by
  refine ⟨?_, ?_, ?_, ?_, ?_, ?_, ?_, ?_, ?_, ?_, ?_, ?_, ?_, ?_⟩
  · intro oid field ov nv h
    simp [applyMutationY, h]
  · intro oid field ov
    cases h : aGet y oid <;> simp [applyMutationY, h]
  · intro oid field ov
    cases h : aGet y oid <;> simp [applyMutationY, h]
  · intro oid field ov rid h
    simp [applyMutationY, h]
  · intro pid oid pos h
    rcases h with h | h
    · simp [applyMutationY, h]
    · cases hp : aGet y pid <;> simp [applyMutationY, h, hp]
  · intro pid oid pos h
    rcases h with h | h
    · simp [applyMutationY, h]
    · cases hp : aGet y pid <;> simp [applyMutationY, h, hp]
  · intro pid oid pos
    cases hp : aGet y pid <;> cases ho : aGet y oid <;> simp [applyMutationY, hp, ho]
  · intro oid field ov nv h
    simp [unapplyMutationY, h]
  · intro oid field nv
    cases h : aGet y oid <;> simp [unapplyMutationY, h]
  · intro oid field nv
    cases h : aGet y oid <;> simp [unapplyMutationY, h]
  · intro oid field ov nv h
    simp [unapplyMutationY, h]
  · intro pid oid pos h
    rcases h with h | h
    · simp [unapplyMutationY, h]
    · cases hp : aGet y pid <;> simp [unapplyMutationY, h, hp]
  · intro pid oid pos h
    rcases h with h | h
    · simp [unapplyMutationY, h]
    · cases hp : aGet y pid <;> simp [unapplyMutationY, h, hp]
  · intro pid oid pos
    cases hp : aGet y pid <;> cases ho : aGet y oid <;> simp [unapplyMutationY, hp, ho]

/-- Witness for C10 on a concrete replicated map: a mutation naming an
absent id is skipped, a null-reference ASSIGN_REF is skipped keeping the
stored field, and REORDER_CHILD is a no-op. -/
theorem bridge_apply_total_skip_spec_witness :
    applyMutationY emptyStore fixY3 (Mutation.assign "zz" "f" Value.null (Value.num 5)) = fixY3 ∧
    applyMutationY emptyStore fixY3 (Mutation.assignRef "a" "parent" none none) = fixY3 ∧
    yFieldOf (applyMutationY emptyStore fixY3 (Mutation.assignRef "a" "parent" none none)) "a" "parent"
      = yFieldOf fixY3 "a" "parent" ∧
    applyMutationY emptyStore fixY3 (Mutation.insertChild "zz" "a" 0) = fixY3 ∧
    unapplyMutationY emptyStore fixY3 (Mutation.removeChild "a" "zz" 0) = fixY3 ∧
    unapplyMutationY emptyStore fixY3 (Mutation.reorderChild "a" "b" 0) = fixY3 := by
  have h := bridge_apply_total_skip_spec emptyStore fixY3
  exact ⟨h.1 "zz" "f" Value.null (Value.num 5) (by decide),
    h.2.1 "a" "parent" none,
    h.2.2.1 "a" "parent" none,
    h.2.2.2.2.1 "zz" "a" 0 (Or.inl (by decide)),
    h.2.2.2.2.2.2.2.2.2.2.2.2.1 "a" "zz" 0 (Or.inr (by decide)),
    h.2.2.2.2.2.2.2.2.2.2.2.2.2 "a" "b" 0⟩

/-- C5: Undoing an action un-applies its transactions in reverse
transaction order and, within each, the mutations in reverse mutation
order — the whole undo equals a single fold of the per-mutation inverse
over the reversed concatenation of all mutations — and the per-mutation
inverse is the logical opposite: CREATE removes the entity's key, DELETE
re-adds it, ASSIGN writes the old value back, INSERT_CHILD deletes the
`parent` and `parent:order` fields, REMOVE_CHILD restores them. -/
theorem undo_reverse_inverse_spec (store : Store) (y : YStore) (txs : List Tx) :
    (undoActionY store y txs
      = ((txs.map (fun t => t.mutations)).flatten).reverse.foldl (unapplyMutationY store) y) ∧
    (∀ obj, aGet (unapplyMutationY store y (Mutation.create obj)) obj.id = none) ∧
    (∀ obj, aGet (unapplyMutationY store y (Mutation.delete obj)) obj.id
        = some (objToYObj store y obj)) ∧
    (∀ oid field ov nv, (aGet y oid).isSome →
        yFieldOf (unapplyMutationY store y (Mutation.assign oid field ov nv)) oid field
          = some ov) ∧
    (∀ pid oid pos, (aGet y pid).isSome → (aGet y oid).isSome →
        yFieldOf (unapplyMutationY store y (Mutation.insertChild pid oid pos)) oid "parent"
            = none ∧
        yFieldOf (unapplyMutationY store y (Mutation.insertChild pid oid pos)) oid "parent:order"
            = none) ∧
    (∀ pid oid pos, (aGet y pid).isSome → (aGet y oid).isSome →
        yFieldOf (unapplyMutationY store y (Mutation.removeChild pid oid pos)) oid "parent"
            = some (Value.str pid) ∧
        ∃ q, yFieldOf (unapplyMutationY store y (Mutation.removeChild pid oid pos)) oid "parent:order"
            = some (Value.num q)) := by
  refine ⟨?_, ?_, ?_, ?_, ?_, ?_⟩
  · induction txs generalizing y with
    | nil => rfl
    | cons t ts ih =>
      have h1 : undoActionY store y (t :: ts)
          = unapplyTransaction store (undoActionY store y ts) t := by
        simp [undoActionY, List.reverse_cons, List.foldl_append]
      have h2 : ((List.map (fun t : Tx => t.mutations) (t :: ts)).flatten).reverse
          = ((List.map (fun t : Tx => t.mutations) ts).flatten).reverse ++ t.mutations.reverse := by
        simp [List.reverse_append]
      rw [h1, h2, List.foldl_append, ← ih]
      rfl
  · intro obj
    exact aGet_aDelete_self y obj.id
  · intro obj
    exact aGet_aSet_self y obj.id (objToYObj store y obj)
  · intro oid field ov nv h
    obtain ⟨yObj, hy⟩ := Option.isSome_iff_exists.mp h
    simp only [unapplyMutationY, hy, yFieldOf, aGet_aSet_self, Option.some_bind]
  · intro pid oid pos hp ho
    obtain ⟨yp, hyp⟩ := Option.isSome_iff_exists.mp hp
    obtain ⟨yo, hyo⟩ := Option.isSome_iff_exists.mp ho
    constructor
    · simp only [unapplyMutationY, hyp, hyo, yFieldOf, aGet_aSet_self, Option.some_bind]
      rw [aGet_aDelete_ne (aDelete yo "parent") "parent:order" "parent" (by decide)]
      exact aGet_aDelete_self yo "parent"
    · simp only [unapplyMutationY, hyp, hyo, yFieldOf, aGet_aSet_self, Option.some_bind]
      exact aGet_aDelete_self _ "parent:order"
  · intro pid oid pos hp ho
    obtain ⟨yp, hyp⟩ := Option.isSome_iff_exists.mp hp
    obtain ⟨yo, hyo⟩ := Option.isSome_iff_exists.mp ho
    constructor
    · simp only [unapplyMutationY, hyp, hyo, yFieldOf, aGet_aSet_self, Option.some_bind]
      rw [aGet_aSet_ne (aSet yo "parent" (Value.str pid)) "parent:order" "parent" _ (by decide)]
      exact aGet_aSet_self yo "parent" (Value.str pid)
    · simp only [unapplyMutationY, hyp, hyo, yFieldOf, aGet_aSet_self, Option.some_bind]
      exact ⟨_, rfl⟩

/-- Witness for C5: concrete inverses on the fixture replicated map —
ASSIGN restores the old order key, INSERT_CHILD deletes both structural
fields, REMOVE_CHILD restores the parent field. -/
theorem undo_reverse_inverse_spec_witness :
    yFieldOf (unapplyMutationY emptyStore fixY3
        (Mutation.assign "a" "parent:order" (Value.num 7) (Value.num 9))) "a" "parent:order"
      = some (Value.num 7) ∧
    yFieldOf (unapplyMutationY emptyStore fixY3 (Mutation.insertChild "b" "a" 0)) "a" "parent"
      = none ∧
    yFieldOf (unapplyMutationY emptyStore fixY3 (Mutation.removeChild "b" "a" 0)) "a" "parent"
      = some (Value.str "b") := by
  have h := undo_reverse_inverse_spec emptyStore fixY3 []
  exact ⟨h.2.2.2.1 "a" "parent:order" (Value.num 7) (Value.num 9) (by decide),
    (h.2.2.2.2.1 "b" "a" 0 (by decide) (by decide)).1,
    (h.2.2.2.2.2 "b" "a" 0 (by decide) (by decide)).1⟩

section EngineHelpers

variable {σ : Type}

theorem resolveSC_foldl_init (cs : List (ResolverFn σ)) (s : σ) (b : Bool) :
    cs.foldl (fun acc c => let r := c acc.1; (r.1, (r.2.getD false) || acc.2)) (s, b)
      = ((resolveShapeConstraints cs s).1, (resolveShapeConstraints cs s).2 || b) := by
  induction cs generalizing s b with
  | nil => simp [resolveShapeConstraints]
  | cons c cs ih =>
    simp only [resolveShapeConstraints, List.foldl_cons]
    rw [ih, ih]
    simp [Bool.or_comm, Bool.or_left_comm, Bool.or_assoc]

theorem resolveShapeConstraints_append (cs₁ cs₂ : List (ResolverFn σ)) (s : σ) :
    resolveShapeConstraints (cs₁ ++ cs₂) s
      = ((resolveShapeConstraints cs₂ (resolveShapeConstraints cs₁ s).1).1,
         (resolveShapeConstraints cs₂ (resolveShapeConstraints cs₁ s).1).2
           || (resolveShapeConstraints cs₁ s).2) := by
  show (cs₁ ++ cs₂).foldl _ (s, false) = _
  rw [List.foldl_append]
  have h1 : cs₁.foldl
      (fun acc c => let r := c acc.1; (r.1, (r.2.getD false) || acc.2)) (s, false)
      = ((resolveShapeConstraints cs₁ s).1, (resolveShapeConstraints cs₁ s).2) := by
    rw [resolveSC_foldl_init]
    simp
  rw [h1, resolveSC_foldl_init]

theorem traverseShapes_foldl_init (shapes : List (List (ResolverFn σ))) (s : σ) (b : Bool) :
    shapes.foldl (fun acc cs => let r := resolveShapeConstraints cs acc.1; (r.1, r.2 || acc.2)) (s, b)
      = ((traverseShapes shapes s).1, (traverseShapes shapes s).2 || b) := by
  induction shapes generalizing s b with
  | nil => simp [traverseShapes]
  | cons cs shapes ih =>
    simp only [traverseShapes, List.foldl_cons]
    rw [ih, ih]
    simp [Bool.or_comm, Bool.or_left_comm, Bool.or_assoc]

theorem traverseShapes_append (shapes₁ shapes₂ : List (List (ResolverFn σ))) (s : σ) :
    traverseShapes (shapes₁ ++ shapes₂) s
      = ((traverseShapes shapes₂ (traverseShapes shapes₁ s).1).1,
         (traverseShapes shapes₂ (traverseShapes shapes₁ s).1).2
           || (traverseShapes shapes₁ s).2) := by
  show (shapes₁ ++ shapes₂).foldl _ (s, false) = _
  rw [List.foldl_append]
  have h1 : shapes₁.foldl
      (fun acc cs => let r := resolveShapeConstraints cs acc.1; (r.1, r.2 || acc.2)) (s, false)
      = ((traverseShapes shapes₁ s).1, (traverseShapes shapes₁ s).2) := by
    rw [traverseShapes_foldl_init]
    simp
  rw [h1, traverseShapes_foldl_init]

theorem iterState_shift (shapesOf : σ → List (List (ResolverFn σ))) (s : σ) (k : ℕ) :
    iterState shapesOf ((traverseOnce shapesOf s).1) k = iterState shapesOf s (k + 1) := by
  induction k with
  | zero => rfl
  | succ k ih => simp only [iterState, ih]

theorem iterChanged_shift (shapesOf : σ → List (List (ResolverFn σ))) (s : σ) (k : ℕ) :
    iterChanged shapesOf ((traverseOnce shapesOf s).1) k = iterChanged shapesOf s (k + 1) := by
  simp only [iterChanged, iterState_shift]

end EngineHelpers

/-- C8: A constraint whose resolver throws (after possibly partial
effects) is caught for that constraint alone: every remaining constraint
of the shape still runs from the state the throwing resolver left
behind, the function returns the or-combination of the changed flags of
the resolvers that completed, and a traversal composes over the page's
shapes, so resolution of the other shapes is not aborted. -/
theorem resolveShapeConstraints_catch_spec {σ : Type}
    (cs₁ cs₂ : List (ResolverFn σ)) (c : ResolverFn σ) (s : σ)
    (hthrow : (c (resolveShapeConstraints cs₁ s).1).2 = none) :
    (resolveShapeConstraints (cs₁ ++ c :: cs₂) s).1
        = (resolveShapeConstraints cs₂ (c (resolveShapeConstraints cs₁ s).1).1).1 ∧
    (resolveShapeConstraints (cs₁ ++ c :: cs₂) s).2
        = ((resolveShapeConstraints cs₁ s).2
            || (resolveShapeConstraints cs₂ (c (resolveShapeConstraints cs₁ s).1).1).2) ∧
    (∀ shapes₁ shapes₂ : List (List (ResolverFn σ)),
        traverseShapes (shapes₁ ++ shapes₂) s
          = ((traverseShapes shapes₂ (traverseShapes shapes₁ s).1).1,
             (traverseShapes shapes₂ (traverseShapes shapes₁ s).1).2
               || (traverseShapes shapes₁ s).2)) := by
  have hmid : resolveShapeConstraints (c :: cs₂) (resolveShapeConstraints cs₁ s).1
      = resolveShapeConstraints cs₂ (c (resolveShapeConstraints cs₁ s).1).1 := by
    show List.foldl _ ((resolveShapeConstraints cs₁ s).1, false) (c :: cs₂) = _
    rw [List.foldl_cons, resolveSC_foldl_init]
    simp only [hthrow, Option.getD_none, Bool.false_or, Bool.or_false]
  have happ := resolveShapeConstraints_append cs₁ (c :: cs₂) s
  rw [hmid] at happ
  refine ⟨?_, ?_, fun shapes₁ shapes₂ => traverseShapes_append shapes₁ shapes₂ s⟩
  · rw [happ]
  · rw [happ]
    exact Bool.or_comm _ _

/-- Witness for C8: with a resolver that mutates then throws flanked by
two completing resolvers, all three effects land and the returned flag
is the or of the two completed resolvers' flags. -/
theorem resolveShapeConstraints_catch_spec_witness :
    (throwResolver (resolveShapeConstraints [incResolver] 0).1).2 = none ∧
    (resolveShapeConstraints [incResolver, throwResolver, incResolver] (0 : ℕ)).1 = 12 ∧
    (resolveShapeConstraints [incResolver, throwResolver, incResolver] (0 : ℕ)).2 = true := by
  have h := resolveShapeConstraints_catch_spec [incResolver] [incResolver] throwResolver
    (0 : ℕ) rfl
  exact ⟨rfl, h.1.trans rfl, (h.2.1).trans rfl⟩

/-- C2: `resolveAllConstraints` performs at most `maxIteration` full page
traversals; it stops and returns "no change" (`false`) directly after
the first traversal that reports no change, without warning; and when
all `maxIteration` traversals report a change it returns `true`, fires
the non-fatal warning, and leaves the engine state exactly as the last
traversal computed it, with no rollback. -/
theorem resolveAllConstraints_bounded_spec {σ : Type}
    (shapesOf : σ → List (List (ResolverFn σ))) (m : ℕ) (s : σ) :
    ((resolveAllConstraints shapesOf m s).traversals ≤ m) ∧
    ((∀ k, k < m → iterChanged shapesOf s k = true) →
        resolveAllConstraints shapesOf m s
          = { state := iterState shapesOf s m, changedResult := true,
              warned := true, traversals := m }) ∧
    (∀ k₀, k₀ < m → iterChanged shapesOf s k₀ = false →
        (∀ j, j < k₀ → iterChanged shapesOf s j = true) →
        resolveAllConstraints shapesOf m s
          = { state := iterState shapesOf s (k₀ + 1), changedResult := false,
              warned := false, traversals := k₀ + 1 }) := by
  induction m generalizing s with
  | zero =>
    refine ⟨le_refl _, fun _ => rfl, fun k₀ hk₀ => absurd hk₀ (by omega)⟩
  | succ m ih =>
    have hunf : resolveAllConstraints shapesOf (m + 1) s
        = (if (traverseOnce shapesOf s).2 then
            let out := resolveLoop shapesOf m (traverseOnce shapesOf s).1
            { out with traversals := out.traversals + 1 }
          else
            { state := (traverseOnce shapesOf s).1, changedResult := false,
              warned := false, traversals := 1 }) := rfl
    cases hr : (traverseOnce shapesOf s).2 with
    | false =>
      refine ⟨?_, ?_, ?_⟩
      · rw [hunf, hr]
        simp
      · intro hall
        exact absurd (hall 0 (by omega)) (by simp [iterChanged, iterState, hr])
      · intro k₀ hk₀ hk₀f hprev
        cases k₀ with
        | zero =>
          rw [hunf, hr]
          simp [iterState]
        | succ k =>
          exact absurd (hprev 0 (by omega)) (by simp [iterChanged, iterState, hr])
    | true =>
      have hrec := ih (traverseOnce shapesOf s).1
      refine ⟨?_, ?_, ?_⟩
      · rw [hunf, hr]
        simp only [if_true]
        have := hrec.1
        simp only [resolveAllConstraints] at this
        omega
      · intro hall
        rw [hunf, hr]
        simp only [if_true]
        have h2 := hrec.2.1 (fun k hk => by
          rw [iterChanged_shift]
          exact hall (k + 1) (by omega))
        simp only [resolveAllConstraints] at h2
        rw [h2]
        simp [iterState_shift]
      · intro k₀ hk₀ hk₀f hprev
        cases k₀ with
        | zero =>
          exact absurd hk₀f (by simp [iterChanged, iterState, hr])
        | succ k =>
          rw [hunf, hr]
          simp only [if_true]
          have h3 := hrec.2.2 k (by omega)
            (by rw [iterChanged_shift]; exact hk₀f)
            (fun j hj => by
              rw [iterChanged_shift]
              exact hprev (j + 1) (by omega))
          simp only [resolveAllConstraints] at h3
          rw [h3]
          simp [iterState_shift]

/-- Witness for C2 on the fixture page: from state 1 the first traversal
changes, the second reports no change, so the call does 2 ≤ 3
traversals, returns "no change" without warning, and leaves the
last-computed state 0. -/
theorem resolveAllConstraints_bounded_spec_witness :
    (resolveAllConstraints fixShapesOf 3 1).traversals ≤ 3 ∧
    resolveAllConstraints fixShapesOf 3 1
      = { state := 0, changedResult := false, warned := false, traversals := 2 } := by
  have h := resolveAllConstraints_bounded_spec fixShapesOf 3 1
  refine ⟨h.1, ?_⟩
  have h3 := h.2.2 1 (by decide) (by decide) (by decide)
  rw [h3]
  rfl

theorem resolveLoop_succ_of_nochange {σ : Type}
    (shapesOf : σ → List (List (ResolverFn σ))) (n : ℕ) (S : σ)
    (h : (traverseOnce shapesOf S).2 = false) :
    resolveLoop shapesOf (n + 1) S
      = { state := (traverseOnce shapesOf S).1, changedResult := false,
          warned := false, traversals := 1 } := by
  simp [resolveLoop, h]

theorem resolveLoop_false_fixpoint {σ : Type}
    (shapesOf : σ → List (List (ResolverFn σ))) (m : ℕ) (s : σ)
    (htrav : ∀ t, (traverseOnce shapesOf t).2 = false → (traverseOnce shapesOf t).1 = t)
    (h : (resolveLoop shapesOf m s).changedResult = false) :
    (traverseOnce shapesOf (resolveLoop shapesOf m s).state).2 = false ∧ 0 < m := by
  induction m generalizing s with
  | zero => exact absurd h (by simp [resolveLoop])
  | succ m ih =>
    cases hr : (traverseOnce shapesOf s).2 with
    | true =>
      have hunf : resolveLoop shapesOf (m + 1) s
          = (let out := resolveLoop shapesOf m (traverseOnce shapesOf s).1
             { out with traversals := out.traversals + 1 }) := by
        simp only [resolveLoop, hr, if_true]
      rw [hunf] at h ⊢
      have := ih (traverseOnce shapesOf s).1 h
      exact ⟨this.1, by omega⟩
    | false =>
      have hunf : resolveLoop shapesOf (m + 1) s
          = { state := (traverseOnce shapesOf s).1, changedResult := false,
              warned := false, traversals := 1 } := by
        simp [resolveLoop, hr]
      rw [hunf]
      refine ⟨?_, by omega⟩
      rw [htrav s hr]
      exact hr

/-- C9: `resolveAllConstraints` is idempotent at fixpoint. If every
traversal that reports "no change" really left the state unchanged (the
resolver contract: the returned flag says whether mutations were
emitted), then after a call that returns "no change" an immediately
repeated call on the resulting state also returns "no change" after a
single traversal and leaves the state untouched — no further mutations
are emitted. -/
theorem resolveAllConstraints_idempotent_at_fixpoint {σ : Type}
    (shapesOf : σ → List (List (ResolverFn σ))) (m : ℕ) (s : σ)
    (htrav : ∀ t, (traverseOnce shapesOf t).2 = false → (traverseOnce shapesOf t).1 = t)
    (hfix : (resolveAllConstraints shapesOf m s).changedResult = false) :
    resolveAllConstraints shapesOf m (resolveAllConstraints shapesOf m s).state
      = { state := (resolveAllConstraints shapesOf m s).state,
          changedResult := false, warned := false, traversals := 1 } := by
  have haux := resolveLoop_false_fixpoint shapesOf m s htrav hfix
  obtain ⟨hS, hm⟩ := haux
  obtain ⟨n, rfl⟩ : ∃ n, m = n + 1 := ⟨m - 1, by omega⟩
  simp only [resolveAllConstraints] at hS ⊢
  rw [resolveLoop_succ_of_nochange shapesOf n _ hS, htrav _ hS]

/-- Witness for C9 on the fixture page: the first call from state 1
returns "no change" with state 0, and the repeated call returns "no
change" after one traversal leaving state 0. -/
theorem resolveAllConstraints_idempotent_at_fixpoint_witness :
    (resolveAllConstraints fixShapesOf 3 1).changedResult = false ∧
    resolveAllConstraints fixShapesOf 3 (resolveAllConstraints fixShapesOf 3 1).state
      = { state := (resolveAllConstraints fixShapesOf 3 1).state,
          changedResult := false, warned := false, traversals := 1 } := by
  refine ⟨by decide, resolveAllConstraints_idempotent_at_fixpoint fixShapesOf 3 1 ?_ (by decide)⟩
  intro t ht
  match t with
  | 0 => rfl
  | (n + 1) =>
    exact absurd ht (by
      simp [traverseOnce, traverseShapes, resolveShapeConstraints, fixShapesOf, decResolver])

/-- C7: Processing a remote "key removed" notification for an id with no
local entity leaves the store unchanged (and, being a total function,
raises no error); when the local entity exists it is dropped from the id
index, and if it was attached its parent's children sequence loses
exactly its id while unrelated entities are untouched. -/
theorem deleteKey_idempotent_detach_spec (store : Store) (key : String) :
    (getById store key = none → applyYjsDeleteKey store key = store) ∧
    (∀ obj, getById store key = some obj → obj.id = key →
        getById (applyYjsDeleteKey store key) key = none ∧
        (∀ pid p, obj.parent = some pid → pid ≠ key → getById store pid = some p →
            key ∈ p.children →
            getById (applyYjsDeleteKey store key) pid
              = some { p with children := p.children.erase key }) ∧
        (obj.parent = none → ∀ k, k ≠ key →
            getById (applyYjsDeleteKey store key) k = getById store k)) := by
  constructor
  · intro h
    simp [applyYjsDeleteKey, h]
  · intro obj hobj hid
    simp only [getById] at hobj
    refine ⟨?_, ?_, ?_⟩
    · cases hp : obj.parent with
      | none =>
        simp only [applyYjsDeleteKey, getById, hobj, hp, removeFromIndex, hid]
        exact aGet_aDelete_self store key
      | some pid =>
        simp only [applyYjsDeleteKey, getById, hobj, hp, removeFromIndex, hid]
        exact aGet_aDelete_self _ key
    · intro pid p hp hpk hpid hmem
      simp only [getById] at hpid
      simp only [applyYjsDeleteKey, getById, hobj, hp, removeFromIndex, hid]
      rw [aGet_aDelete_ne _ key pid hpk, aGet_aModify_ne _ key pid _ hpk,
        aGet_aModify_self, hpid]
      simp only [Option.map_some']
      rw [jsSplice1_idxOfZ_of_mem p.children key hmem]
    · intro hp k hk
      simp only [applyYjsDeleteKey, getById, hobj, hp, removeFromIndex, hid]
      exact aGet_aDelete_ne store key k hk

/-- Witness for C7: an absent id is a no-op; deleting the attached child
`A` removes it from the index and from `P`'s children. -/
theorem deleteKey_idempotent_detach_spec_witness :
    applyYjsDeleteKey fixStorePA "zz" = fixStorePA ∧
    getById (applyYjsDeleteKey fixStorePA "A") "A" = none ∧
    getById (applyYjsDeleteKey fixStorePA "A") "P"
      = some { id := "P", children := ([] : List String) } := by
  have h1 := (deleteKey_idempotent_detach_spec fixStorePA "zz").1 (by decide)
  have h2 := (deleteKey_idempotent_detach_spec fixStorePA "A").2
    { id := "A", parent := some "P" } (by decide) (by decide)
  refine ⟨h1, h2.1, ?_⟩
  have h3 := h2.2.1 "P" { id := "P", children := ["A"] } (by decide) (by decide)
    (by decide) (by decide)
  rw [h3]
  decide

section SetParentHelpers

theorem setParent_none (store : Store) (yStore : YStore) (oid : String) (q : ℚ)
    (obj : Obj) (hobj : getById store oid = some obj) (hop : obj.parent = none) :
    setParent store yStore oid none q
      = aModify store oid (fun o => { o with parent := none }) := by
  simp only [setParent, hobj, hop]
  rfl

theorem setParent_missing (store : Store) (yStore : YStore) (oid pid : String)
    (q : ℚ) (obj : Obj) (hobj : getById store oid = some obj)
    (hop : obj.parent = none) (hmiss : getById store pid = none) :
    setParent store yStore oid (some pid) q
      = aModify store oid (fun o => { o with parent := none }) := by
  simp only [setParent, hobj, hop, setParentDetach, setParentAttach, hmiss]

theorem setParent_attach_fresh (store : Store) (yStore : YStore) (oid pid : String)
    (q : ℚ) (obj parent : Obj)
    (hobj : getById store oid = some obj) (hop : obj.parent = none)
    (hparent : getById store pid = some parent) (hnm : oid ∉ parent.children) :
    setParent store yStore oid (some pid) q
      = (match (siblingOrders yStore pid).findIdx? (fun o => q ≤ o) with
         | none => aModify (aModify store oid (fun o => { o with parent := some pid })) pid
             (fun p => { p with children := p.children ++ [oid] })
         | some i => aModify (aModify store oid (fun o => { o with parent := some pid })) pid
             (fun p => { p with children := jsInsertAt p.children i oid })) := by
  simp only [setParent, hobj, hop, setParentDetach, setParentAttach, hparent, if_neg hnm]

theorem setParent_already_member (store : Store) (yStore : YStore) (oid pid : String)
    (q : ℚ) (obj parent : Obj)
    (hobj : getById store oid = some obj) (hop : obj.parent = some pid)
    (hparent : getById store pid = some parent) (hmem : oid ∈ parent.children) :
    setParent store yStore oid (some pid) q
      = aModify store oid (fun o => { o with parent := some pid }) := by
  simp [setParent, hobj, hop, setParentDetach, setParentAttach, hparent, hmem]

end SetParentHelpers

/-- Counterexample for C4 as stated: in the fixture, entity `X` (order
key −1) should — per the claim's position rule over the
already-materialized siblings `[C, B]` (keys −2, 0) — be inserted before
`B`, giving `[C, X, B]`; the code instead searches all replicated
siblings in map iteration order (`B, C, X` with keys `0, −2, −1`),
finds index 0 (the first key ≥ −1), and produces `[X, C, B]`. -/
theorem addKey_claimed_position_cex :
    childrenOf (applyYjsAddKey cexStore cexY "X") "P" = ["X", "C", "B"] ∧
    claimedAddChildren cexStore cexY "X" "P" = ["C", "X", "B"] ∧
    childrenOf (applyYjsAddKey cexStore cexY "X") "P"
      ≠ claimedAddChildren cexStore cexY "X" "P" := by
  refine ⟨by decide, by decide, by decide⟩

/-- C4 (amended): on a remote "key added" for an id not in the local
store, the bridge decodes the flat map into a new entity (resolving the
`head`/`tail` reference fields against the id index) and adds it to the
index.  When its `parent` id resolves to a local entity, it is inserted
into that parent's children at the index found by scanning the order
keys of ALL replicated entities whose `parent` field names that parent —
in map iteration order, including entries not yet materialized locally
and the entity itself — for the first key ≥ its own key (appended at the
end when there is none), the splice clamping the index to the children
sequence.  When the parent id does not resolve, the entity stays
unattached with a null parent and nothing else changes; a later `parent`
update for an entity already among the resolved parent's children leaves
the children sequence unchanged (no duplication). -/
theorem addKey_materializes_spec (store : Store) (yStore : YStore) (key : String)
    (yObj : YObj) (hkey : getById store key = none) (hy : aGet yStore key = some yObj) :
    (strOf (aGet yObj "parent") = none →
        getById (applyYjsAddKey store yStore key) key
            = some (resolveRefs store (yObjToObj key yObj)) ∧
        (∀ k, k ≠ key → getById (applyYjsAddKey store yStore key) k = getById store k)) ∧
    (∀ pid parent, strOf (aGet yObj "parent") = some pid → pid ≠ key →
        getById store pid = some parent → key ∉ parent.children →
        getById (applyYjsAddKey store yStore key) key
            = some { resolveRefs store (yObjToObj key yObj) with parent := some pid } ∧
        childrenOf (applyYjsAddKey store yStore key) pid
          = (match (siblingOrders yStore pid).findIdx?
                (fun o => numOf (aGet yObj "parent:order") ≤ o) with
             | none => parent.children ++ [key]
             | some i => jsInsertAt parent.children i key)) ∧
    (∀ pid, strOf (aGet yObj "parent") = some pid → pid ≠ key →
        getById store pid = none →
        getById (applyYjsAddKey store yStore key) key
            = some (resolveRefs store (yObjToObj key yObj)) ∧
        (∀ k, k ≠ key → getById (applyYjsAddKey store yStore key) k = getById store k)) ∧
    (∀ oid obj2 yo pid parent2, getById store oid = some obj2 →
        aGet yStore oid = some yo → strOf (aGet yo "parent") = some pid →
        obj2.parent = some pid → pid ≠ oid →
        getById store pid = some parent2 → oid ∈ parent2.children →
        childrenOf (applyYjsUpdateParent store yStore oid) pid = parent2.children) := by
  have hrid : (resolveRefs store (yObjToObj key yObj)).id = key := rfl
  have hrp : (resolveRefs store (yObjToObj key yObj)).parent = none := rfl
  have happ : applyYjsAddKey store yStore key
      = setParent (aSet store key (resolveRefs store (yObjToObj key yObj))) yStore key
          (strOf (aGet yObj "parent")) (numOf (aGet yObj "parent:order")) := by
    simp only [applyYjsAddKey, hkey, hy, addToIndex, hrid]
  have hs1 : getById (aSet store key (resolveRefs store (yObjToObj key yObj))) key
      = some (resolveRefs store (yObjToObj key yObj)) :=
    aGet_aSet_self store key _
  have hfix : ({ resolveRefs store (yObjToObj key yObj) with parent := none })
      = resolveRefs store (yObjToObj key yObj) := rfl
  refine ⟨?_, ?_, ?_, ?_⟩
  · intro hpn
    rw [happ, hpn, setParent_none _ _ _ _ _ hs1 hrp]
    constructor
    · show aGet _ key = _
      rw [aGet_aModify_self]
      show Option.map _ (aGet _ key) = _
      rw [show aGet (aSet store key (resolveRefs store (yObjToObj key yObj))) key
            = some (resolveRefs store (yObjToObj key yObj)) from hs1]
      simp only [Option.map_some']
      rw [hfix]
    · intro k hk
      show aGet _ k = getById store k
      rw [aGet_aModify_ne _ key k _ hk, aGet_aSet_ne store key k _ hk]
      rfl
  · intro pid parent hpid hpk hparent hnm
    have hparent1 : getById (aSet store key (resolveRefs store (yObjToObj key yObj))) pid
        = some parent := by
      show aGet _ pid = _
      rw [aGet_aSet_ne store key pid _ hpk]
      exact hparent
    rw [happ, hpid, setParent_attach_fresh _ yStore key pid _ _ parent hs1 hrp hparent1 hnm]
    cases hidx : (siblingOrders yStore pid).findIdx?
        (fun o => numOf (aGet yObj "parent:order") ≤ o) with
    | none =>
      constructor
      · show aGet _ key = _
        rw [aGet_aModify_ne _ pid key _ (Ne.symm hpk), aGet_aModify_self]
        rw [show aGet (aSet store key (resolveRefs store (yObjToObj key yObj))) key
              = some (resolveRefs store (yObjToObj key yObj)) from hs1]
        rfl
      · show childrenOf _ pid = _
        simp only [childrenOf, getById]
        rw [aGet_aModify_self, aGet_aModify_ne _ key pid _ hpk]
        rw [show aGet (aSet store key (resolveRefs store (yObjToObj key yObj))) pid
              = some parent from hparent1]
        rfl
    | some i =>
      constructor
      · show aGet _ key = _
        rw [aGet_aModify_ne _ pid key _ (Ne.symm hpk), aGet_aModify_self]
        rw [show aGet (aSet store key (resolveRefs store (yObjToObj key yObj))) key
              = some (resolveRefs store (yObjToObj key yObj)) from hs1]
        rfl
      · show childrenOf _ pid = _
        simp only [childrenOf, getById]
        rw [aGet_aModify_self, aGet_aModify_ne _ key pid _ hpk]
        rw [show aGet (aSet store key (resolveRefs store (yObjToObj key yObj))) pid
              = some parent from hparent1]
        rfl
  · intro pid hpid hpk hmiss
    have hmiss1 : getById (aSet store key (resolveRefs store (yObjToObj key yObj))) pid
        = none := by
      show aGet _ pid = _
      rw [aGet_aSet_ne store key pid _ hpk]
      exact hmiss
    rw [happ, hpid, setParent_missing _ _ _ pid _ _ hs1 hrp hmiss1]
    constructor
    · show aGet _ key = _
      rw [aGet_aModify_self]
      rw [show aGet (aSet store key (resolveRefs store (yObjToObj key yObj))) key
            = some (resolveRefs store (yObjToObj key yObj)) from hs1]
      simp only [Option.map_some']
      rw [hfix]
    · intro k hk
      show aGet _ k = getById store k
      rw [aGet_aModify_ne _ key k _ hk, aGet_aSet_ne store key k _ hk]
      rfl
  · intro oid obj2 yo pid parent2 hobj2 hyo hpid hop hpo hparent2 hmem
    have hupd : applyYjsUpdateParent store yStore oid
        = setParent store yStore oid (strOf (aGet yo "parent"))
            (numOf (aGet yo "parent:order")) := by
      simp only [applyYjsUpdateParent, hobj2, hyo]
    rw [hupd, hpid, setParent_already_member store yStore oid pid _ obj2 parent2
      hobj2 hop hparent2 hmem]
    show childrenOf _ pid = _
    simp only [childrenOf, getById]
    rw [aGet_aModify_ne _ oid pid _ hpo]
    show (match aGet store pid with | some o => o.children | none => []) = _
    rw [show aGet store pid = some parent2 from hparent2]

/-- Witness for C4 (amended) on the counterexample fixture: `X`
materializes indexed with parent `P`, inserted at the yStore-derived
index 0, and a redundant later `parent` update for the already-attached
`A` leaves `P`'s children unchanged. -/
theorem addKey_materializes_spec_witness :
    getById (applyYjsAddKey cexStore cexY "X") "X"
      = some { resolveRefs cexStore (yObjToObj "X" (yObjP "P" (-1))) with
               parent := some "P" } ∧
    childrenOf (applyYjsAddKey cexStore cexY "X") "P" = ["X", "C", "B"] ∧
    childrenOf (applyYjsUpdateParent fixStorePA fixYPA "A") "P" = ["A"] := by
  have h := addKey_materializes_spec cexStore cexY "X" (yObjP "P" (-1))
    (by decide) (by decide)
  have hb := h.2.1 "P" { id := "P", children := ["C", "B"] }
    (by decide) (by decide) (by decide) (by decide)
  have h2 := addKey_materializes_spec fixStorePA fixYPA "N" [("f", Value.num 1)]
    (by decide) (by decide)
  have hd := h2.2.2.2 "A" { id := "A", parent := some "P" } (yObjP "P" 0) "P"
    { id := "P", children := ["A"] }
    (by decide) (by decide) (by decide) (by decide) (by decide) (by decide) (by decide)
  exact ⟨hb.1, hb.2.trans (by decide), hd⟩

section StoreKeyHelpers

theorem mem_storeKeys_iff (store : Store) (k : String) :
    k ∈ storeKeys store ↔ (getById store k).isSome := by
  induction store with
  | nil => simp [storeKeys, getById, aGet]
  | cons e l ih =>
    by_cases he : e.1 = k
    · simp [storeKeys, getById, aGet, List.find?_cons, he]
    · simp only [storeKeys, List.map_cons, List.mem_cons]
      rw [show getById (e :: l) k = getById l k from by
        simp only [getById, aGet]
        rw [List.find?_cons_of_neg _ (by simp [he])]]
      simp only [storeKeys] at ih
      rw [ih]
      have hk : ¬ (k = e.1) := fun h => he h.symm
      simp [hk]

theorem storeKeys_aModify (store : Store) (k : String) (f : Obj → Obj) :
    storeKeys (aModify store k f) = storeKeys store := by
  simp only [storeKeys, aModify, List.map_map]
  apply List.map_congr_left
  intro e _
  by_cases he : e.1 = k <;> simp [he]

theorem setParentAttach_insert (store : Store) (yStore : YStore) (oid pid : String)
    (q : ℚ) (parent : Obj)
    (hparent : getById store pid = some parent) (hnm : oid ∉ parent.children) :
    setParentAttach store yStore oid (some pid) q
      = (match (siblingOrders yStore pid).findIdx? (fun o => q ≤ o) with
         | none => aModify (aModify store oid (fun o => { o with parent := some pid })) pid
             (fun p => { p with children := p.children ++ [oid] })
         | some i => aModify (aModify store oid (fun o => { o with parent := some pid })) pid
             (fun p => { p with children := jsInsertAt p.children i oid })) := by
  simp only [setParentAttach, hparent, if_neg hnm]

theorem setParentAttach_member (store : Store) (yStore : YStore) (oid pid : String)
    (q : ℚ) (parent : Obj)
    (hparent : getById store pid = some parent) (hmem : oid ∈ parent.children) :
    setParentAttach store yStore oid (some pid) q
      = aModify store oid (fun o => { o with parent := some pid }) := by
  simp only [setParentAttach, hparent, if_pos hmem]

end StoreKeyHelpers

theorem bicond_after_reparent (store store' : Store) (oid pid : String)
    (obj parent : Obj) (nc : List String)
    (hinv : bicondInv store) (hnodup : childrenNodup store)
    (hobj : getById store oid = some obj)
    (hparent : getById store pid = some parent)
    (hpo : pid ≠ oid) (hso : obj.parent ≠ some oid)
    (hkeys : storeKeys store' = storeKeys store)
    (hg_oid : getById store' oid = some { obj with parent := some pid })
    (hg_pid : getById store' pid = some { parent with children := nc })
    (hnc : ∀ x, x ∈ nc ↔ x = oid ∨ x ∈ parent.children)
    (hg_other : ∀ k, k ≠ oid → k ≠ pid →
        (∀ opid, obj.parent = some opid → k ≠ opid) →
        getById store' k = getById store k)
    (hg_old : ∀ opid pOld, obj.parent = some opid → opid ≠ pid → opid ≠ oid →
        getById store opid = some pOld →
        getById store' opid = some { pOld with children := pOld.children.erase oid })
    (hg_old_abs : ∀ opid, obj.parent = some opid → getById store opid = none →
        getById store' opid = none) :
    parentOf store' oid = some pid ∧
    oid ∈ childrenOf store' pid ∧
    (∀ opid, obj.parent = some opid → opid ≠ pid → oid ∉ childrenOf store' opid) ∧
    bicondInv store' := by
  have hbic : ∀ pk p ck c, getById store pk = some p → getById store ck = some c →
      (ck ∈ p.children ↔ c.parent = some pk) := by
    intro pk p ck c hp hc
    have h1 := hinv pk ((mem_storeKeys_iff store pk).mpr (by rw [hp]; rfl))
      ck ((mem_storeKeys_iff store ck).mpr (by rw [hc]; rfl))
    simpa [childrenOf, parentOf, hp, hc] using h1
  have hnodup' : ∀ k p, getById store k = some p → p.children.Nodup := by
    intro k p hp
    have h1 := hnodup k ((mem_storeKeys_iff store k).mpr (by rw [hp]; rfl))
    simpa [childrenOf, hp] using h1
  have hpar' : ∀ ck c, ck ≠ oid → getById store ck = some c →
      parentOf store' ck = c.parent := by
    intro ck c hck hc
    by_cases hp1 : ck = pid
    · subst hp1
      have hcp : c = parent := by
        rw [hparent] at hc
        exact (Option.some.inj hc).symm
      subst hcp
      simp [parentOf, hg_pid]
    · cases hopt : obj.parent with
      | none =>
        have h2 := hg_other ck hck hp1 (fun o h => by rw [hopt] at h; cases h)
        simp [parentOf, h2, hc]
      | some opid =>
        by_cases hko : ck = opid
        · subst hko
          have h2 := hg_old ck c hopt hp1 hck hc
          simp [parentOf, h2]
        · have h2 := hg_other ck hck hp1
            (fun o h => by rw [hopt] at h; injection h with h3; rw [← h3]; exact hko)
          simp [parentOf, h2, hc]
  have hch_pid : childrenOf store' pid = nc := by simp [childrenOf, hg_pid]
  have hch_oid : childrenOf store' oid = obj.children := by simp [childrenOf, hg_oid]
  have hch_other : ∀ pk p, pk ≠ oid → pk ≠ pid →
      (∀ opid, obj.parent = some opid → pk ≠ opid) →
      getById store pk = some p → childrenOf store' pk = p.children := by
    intro pk p h1 h2 h3 hp
    simp [childrenOf, hg_other pk h1 h2 h3, hp]
  have hch_old : ∀ opid pOld, obj.parent = some opid → opid ≠ pid → opid ≠ oid →
      getById store opid = some pOld →
      childrenOf store' opid = pOld.children.erase oid := by
    intro opid pOld hop hone hoo hold
    simp [childrenOf, hg_old opid pOld hop hone hoo hold]
  refine ⟨by simp [parentOf, hg_oid], ?_, ?_, ?_⟩
  · rw [hch_pid]
    exact (hnc oid).mpr (Or.inl rfl)
  · intro opid hop hone
    have hoo : opid ≠ oid := fun h => hso (h ▸ hop)
    cases hold : getById store opid with
    | none =>
      simp [childrenOf, hg_old_abs opid hop hold]
    | some pOld =>
      rw [hch_old opid pOld hop hone hoo hold]
      exact (hnodup' opid pOld hold).not_mem_erase
  · intro pk hpk ck hck
    rw [hkeys] at hpk hck
    obtain ⟨p, hp⟩ := Option.isSome_iff_exists.mp ((mem_storeKeys_iff store pk).mp hpk)
    obtain ⟨c, hc⟩ := Option.isSome_iff_exists.mp ((mem_storeKeys_iff store ck).mp hck)
    by_cases hcko : ck = oid
    · rw [hcko]
      have hpoid : parentOf store' oid = some pid := by simp [parentOf, hg_oid]
      rw [hpoid]
      by_cases hpkp : pk = pid
      · rw [hpkp, hch_pid]
        simp [(hnc oid).mpr (Or.inl rfl)]
      · have hne2 : ¬ (some pid = some pk) := fun h => hpkp (Option.some.inj h).symm
        simp only [hne2, iff_false]
        by_cases hpko : pk = oid
        · rw [hpko, hch_oid]
          intro hmm
          exact hso ((hbic oid obj oid obj hobj hobj).mp hmm)
        · cases hopt : obj.parent with
          | none =>
            rw [hch_other pk p hpko hpkp (fun o h => by rw [hopt] at h; cases h) hp]
            intro hmm
            have h4 := (hbic pk p oid obj hp hobj).mp hmm
            rw [hopt] at h4
            cases h4
          | some opid =>
            by_cases hpild : pk = opid
            · have hp2 : getById store opid = some p := by rw [← hpild]; exact hp
              have hone : opid ≠ pid := fun h => hpkp (hpild.trans h)
              have hoo : opid ≠ oid := fun h => hpko (hpild.trans h)
              rw [hpild, hch_old opid p hopt hone hoo hp2]
              exact fun hmm => ((hnodup' opid p hp2).mem_erase_iff.mp hmm).1 rfl
            · rw [hch_other pk p hpko hpkp
                (fun o h => by rw [hopt] at h; injection h with h3; rw [← h3]; exact hpild) hp]
              intro hmm
              have h4 := (hbic pk p oid obj hp hobj).mp hmm
              rw [hopt] at h4
              exact hpild (Option.some.inj h4).symm
    · rw [hpar' ck c hcko hc]
      by_cases hpkp : pk = pid
      · rw [hpkp, hch_pid, hnc ck]
        simp only [hcko, false_or]
        exact hbic pid parent ck c hparent hc
      · by_cases hpko : pk = oid
        · rw [hpko, hch_oid]
          exact hbic oid obj ck c hobj hc
        · cases hopt : obj.parent with
          | none =>
            rw [hch_other pk p hpko hpkp (fun o h => by rw [hopt] at h; cases h) hp]
            exact hbic pk p ck c hp hc
          | some opid =>
            by_cases hpild : pk = opid
            · have hp2 : getById store opid = some p := by rw [← hpild]; exact hp
              have hone : opid ≠ pid := fun h => hpkp (hpild.trans h)
              have hoo : opid ≠ oid := fun h => hpko (hpild.trans h)
              rw [hpild, hch_old opid p hopt hone hoo hp2,
                (hnodup' opid p hp2).mem_erase_iff]
              simp only [ne_eq, hcko, not_false_eq_true, true_and]
              exact hbic opid p ck c hp2 hc
            · rw [hch_other pk p hpko hpkp
                (fun o h => by rw [hopt] at h; injection h with h3; rw [← h3]; exact hpild) hp]
              exact hbic pk p ck c hp hc

/-- C1: After the bridge processes a remote "key updated" notification
whose changed field is `parent` (the `setParent` path of
`applyYjsEvent`), the entity is detached from its former parent's
children (when it had a different one), attached under the new parent —
at the index resolved from its `parent:order` key against the
replicated siblings' order keys — and the biconditional
"`parent.children` contains `child` iff `child.parent == parent`" holds
for every entity in the store, assuming it held before and children
sequences were duplicate-free. -/
theorem updateParent_reparent_bicond (store : Store) (yStore : YStore)
    (oid pid : String) (obj : Obj) (yObj : YObj) (parent : Obj)
    (hinv : bicondInv store) (hnodup : childrenNodup store)
    (hobj : getById store oid = some obj)
    (hyo : aGet yStore oid = some yObj)
    (hpid : strOf (aGet yObj "parent") = some pid)
    (hparent : getById store pid = some parent)
    (hpo : pid ≠ oid)
    (hso : obj.parent ≠ some oid) :
    parentOf (applyYjsUpdateParent store yStore oid) oid = some pid ∧
    oid ∈ childrenOf (applyYjsUpdateParent store yStore oid) pid ∧
    (∀ opid, obj.parent = some opid → opid ≠ pid →
        oid ∉ childrenOf (applyYjsUpdateParent store yStore oid) opid) ∧
    (obj.parent ≠ some pid →
        childrenOf (applyYjsUpdateParent store yStore oid) pid
          = (match (siblingOrders yStore pid).findIdx?
                (fun o => numOf (aGet yObj "parent:order") ≤ o) with
             | none => parent.children ++ [oid]
             | some i => jsInsertAt parent.children i oid)) ∧
    bicondInv (applyYjsUpdateParent store yStore oid) := by
  have hkpid : pid ∈ storeKeys store :=
    (mem_storeKeys_iff store pid).mpr (by rw [hparent]; rfl)
  have hkoid : oid ∈ storeKeys store :=
    (mem_storeKeys_iff store oid).mpr (by rw [hobj]; rfl)
  have hmemiff : oid ∈ parent.children ↔ obj.parent = some pid := by
    have h1 := hinv pid hkpid oid hkoid
    simpa [childrenOf, parentOf, hparent, hobj] using h1
  have hupd0 : applyYjsUpdateParent store yStore oid
      = setParentAttach (setParentDetach store oid obj.parent (some pid)) yStore oid
          (some pid) (numOf (aGet yObj "parent:order")) := by
    simp only [applyYjsUpdateParent, hobj, hyo, hpid, setParent]
  by_cases hsame : obj.parent = some pid
  · -- same parent: no detach, already a member, only the (equal) back
    -- reference is rewritten
    have hmem : oid ∈ parent.children := hmemiff.mpr hsame
    have hdet : setParentDetach store oid obj.parent (some pid) = store := by
      rw [hsame]
      simp [setParentDetach]
    have hupd : applyYjsUpdateParent store yStore oid
        = aModify store oid (fun o => { o with parent := some pid }) := by
      rw [hupd0, hdet, setParentAttach_member store yStore oid pid _ parent hparent hmem]
    have hg_oid : getById (applyYjsUpdateParent store yStore oid) oid
        = some { obj with parent := some pid } := by
      rw [hupd]
      show aGet _ _ = _
      rw [aGet_aModify_self, show aGet store oid = some obj from hobj]
      rfl
    have hg_other : ∀ k, k ≠ oid →
        getById (applyYjsUpdateParent store yStore oid) k = getById store k := by
      intro k hk
      rw [hupd]
      exact aGet_aModify_ne store oid k _ hk
    have hch : ∀ k, childrenOf (applyYjsUpdateParent store yStore oid) k
        = childrenOf store k := by
      intro k
      by_cases hk : k = oid
      · rw [hk]
        simp [childrenOf, hg_oid, hobj]
      · simp [childrenOf, hg_other k hk]
    have hpar2 : ∀ k, parentOf (applyYjsUpdateParent store yStore oid) k
        = parentOf store k := by
      intro k
      by_cases hk : k = oid
      · rw [hk]
        simp [parentOf, hg_oid, hobj, hsame]
      · simp [parentOf, hg_other k hk]
    have hkeys : storeKeys (applyYjsUpdateParent store yStore oid) = storeKeys store := by
      rw [hupd]
      exact storeKeys_aModify store oid _
    refine ⟨by simp [parentOf, hg_oid], ?_, ?_, fun h => absurd hsame h, ?_⟩
    · rw [hch pid]
      simp [childrenOf, hparent, hmem]
    · intro opid hop hone
      rw [hsame] at hop
      exact absurd (Option.some.inj hop).symm hone
    · intro pk hpk ck hck
      rw [hkeys] at hpk hck
      rw [hch pk, hpar2 ck]
      exact hinv pk hpk ck hck
  · -- real reparent: detach from the old parent (if any), insert under
    -- the new parent at the resolved index
    have hnm : oid ∉ parent.children := fun hm => hsame (hmemiff.mp hm)
    cases hopt : obj.parent with
    | none =>
      have hupd1 : applyYjsUpdateParent store yStore oid
          = setParentAttach store yStore oid (some pid)
              (numOf (aGet yObj "parent:order")) := by
        rw [hupd0, hopt]
        rfl
      cases hidx : (siblingOrders yStore pid).findIdx?
          (fun o => numOf (aGet yObj "parent:order") ≤ o) with
      | none =>
        have hupd2 : applyYjsUpdateParent store yStore oid
            = aModify (aModify store oid (fun o => { o with parent := some pid })) pid
                (fun p => { p with children := p.children ++ [oid] }) := by
          rw [hupd1, setParentAttach_insert store yStore oid pid _ parent hparent hnm, hidx]
        rw [hupd2]
        have hg_pid : getById (aModify (aModify store oid
            (fun o => { o with parent := some pid })) pid
            (fun p => { p with children := p.children ++ [oid] })) pid
            = some { parent with children := parent.children ++ [oid] } := by
          show aGet _ _ = _
          rw [aGet_aModify_self, aGet_aModify_ne _ oid pid _ hpo,
            show aGet store pid = some parent from hparent]
          rfl
        have hmain := bicond_after_reparent store
          (aModify (aModify store oid (fun o => { o with parent := some pid })) pid
            (fun p => { p with children := p.children ++ [oid] }))
          oid pid obj parent (parent.children ++ [oid]) hinv hnodup hobj hparent hpo
          (by rw [hopt]; simp)
          (by rw [storeKeys_aModify, storeKeys_aModify])
          (by
            show aGet _ _ = _
            rw [aGet_aModify_ne _ pid oid _ (Ne.symm hpo), aGet_aModify_self,
              show aGet store oid = some obj from hobj]
            rfl)
          hg_pid
          (by intro x; simp [or_comm])
          (by
            intro k h1 h2 h3
            show aGet _ _ = _
            rw [aGet_aModify_ne _ pid k _ h2, aGet_aModify_ne _ oid k _ h1]
            rfl)
          (by intro o pOld h; rw [hopt] at h; cases h)
          (by intro o h; rw [hopt] at h; cases h)
        refine ⟨hmain.1, hmain.2.1, ?_, ?_, hmain.2.2.2⟩
        · intro o h
          cases h
        · intro _
          simp only [childrenOf, hg_pid]
      | some i =>
        have hupd2 : applyYjsUpdateParent store yStore oid
            = aModify (aModify store oid (fun o => { o with parent := some pid })) pid
                (fun p => { p with children := jsInsertAt p.children i oid }) := by
          rw [hupd1, setParentAttach_insert store yStore oid pid _ parent hparent hnm, hidx]
        rw [hupd2]
        have hg_pid : getById (aModify (aModify store oid
            (fun o => { o with parent := some pid })) pid
            (fun p => { p with children := jsInsertAt p.children i oid })) pid
            = some { parent with children := jsInsertAt parent.children i oid } := by
          show aGet _ _ = _
          rw [aGet_aModify_self, aGet_aModify_ne _ oid pid _ hpo,
            show aGet store pid = some parent from hparent]
          rfl
        have hmain := bicond_after_reparent store
          (aModify (aModify store oid (fun o => { o with parent := some pid })) pid
            (fun p => { p with children := jsInsertAt p.children i oid }))
          oid pid obj parent (jsInsertAt parent.children i oid) hinv hnodup hobj hparent hpo
          (by rw [hopt]; simp)
          (by rw [storeKeys_aModify, storeKeys_aModify])
          (by
            show aGet _ _ = _
            rw [aGet_aModify_ne _ pid oid _ (Ne.symm hpo), aGet_aModify_self,
              show aGet store oid = some obj from hobj]
            rfl)
          hg_pid
          (fun x => mem_jsInsertAt parent.children i oid x)
          (by
            intro k h1 h2 h3
            show aGet _ _ = _
            rw [aGet_aModify_ne _ pid k _ h2, aGet_aModify_ne _ oid k _ h1]
            rfl)
          (by intro o pOld h; rw [hopt] at h; cases h)
          (by intro o h; rw [hopt] at h; cases h)
        refine ⟨hmain.1, hmain.2.1, ?_, ?_, hmain.2.2.2⟩
        · intro o h
          cases h
        · intro _
          simp only [childrenOf, hg_pid]
    | some opid =>
      have hone : opid ≠ pid := fun h => hsame (by rw [hopt, h])
      have hoo : opid ≠ oid := fun h => hso (by rw [hopt, h])
      have hdet1 : setParentDetach store oid (some opid) (some pid)
          = aModify store opid
              (fun p => { p with children := jsSplice1 p.children (idxOfZ p.children oid) }) := by
        simp [setParentDetach, hone]
      have h1oid : getById (aModify store opid
          (fun p => { p with children := jsSplice1 p.children (idxOfZ p.children oid) })) oid
          = some obj := by
        show aGet _ _ = _
        rw [aGet_aModify_ne _ opid oid _ (Ne.symm hoo)]
        exact hobj
      have h1pid : getById (aModify store opid
          (fun p => { p with children := jsSplice1 p.children (idxOfZ p.children oid) })) pid
          = some parent := by
        show aGet _ _ = _
        rw [aGet_aModify_ne _ opid pid _ (Ne.symm hone)]
        exact hparent
      have hmem_old : ∀ pOld, getById store opid = some pOld → oid ∈ pOld.children := by
        intro pOld hold
        have h1 := hinv opid ((mem_storeKeys_iff store opid).mpr (by rw [hold]; rfl))
          oid hkoid
        have h2 : parentOf store oid = some opid := by simp [parentOf, hobj, hopt]
        exact ((by simpa [childrenOf, hold] using h1 : oid ∈ pOld.children
          ↔ parentOf store oid = some opid)).mpr h2
      have hupd1 : applyYjsUpdateParent store yStore oid
          = setParentAttach (aModify store opid
              (fun p => { p with children := jsSplice1 p.children (idxOfZ p.children oid) }))
              yStore oid (some pid) (numOf (aGet yObj "parent:order")) := by
        rw [hupd0, hopt, hdet1]
      cases hidx : (siblingOrders yStore pid).findIdx?
          (fun o => numOf (aGet yObj "parent:order") ≤ o) with
      | none =>
        have hupd2 : applyYjsUpdateParent store yStore oid
            = aModify (aModify (aModify store opid
                (fun p => { p with children := jsSplice1 p.children (idxOfZ p.children oid) }))
                oid (fun o => { o with parent := some pid })) pid
                (fun p => { p with children := p.children ++ [oid] }) := by
          rw [hupd1, setParentAttach_insert _ yStore oid pid _ parent h1pid hnm, hidx]
        rw [hupd2]
        have hg_pid : getById (aModify (aModify (aModify store opid
              (fun p => { p with children := jsSplice1 p.children (idxOfZ p.children oid) }))
              oid (fun o => { o with parent := some pid })) pid
            (fun p => { p with children := p.children ++ [oid] })) pid
            = some { parent with children := parent.children ++ [oid] } := by
          show aGet _ _ = _
          rw [aGet_aModify_self, aGet_aModify_ne _ oid pid _ hpo,
            show aGet _ pid = some parent from h1pid]
          rfl
        have hmain := bicond_after_reparent store
          (aModify (aModify (aModify store opid
              (fun p => { p with children := jsSplice1 p.children (idxOfZ p.children oid) }))
              oid (fun o => { o with parent := some pid })) pid
            (fun p => { p with children := p.children ++ [oid] }))
          oid pid obj parent (parent.children ++ [oid]) hinv hnodup hobj hparent hpo
          (by rw [hopt]; simp [hoo])
          (by rw [storeKeys_aModify, storeKeys_aModify, storeKeys_aModify])
          (by
            show aGet _ _ = _
            rw [aGet_aModify_ne _ pid oid _ (Ne.symm hpo), aGet_aModify_self,
              show aGet _ oid = some obj from h1oid]
            rfl)
          hg_pid
          (by intro x; simp [or_comm])
          (by
            intro k h1 h2 h3
            show aGet _ _ = _
            rw [aGet_aModify_ne _ pid k _ h2, aGet_aModify_ne _ oid k _ h1,
              aGet_aModify_ne _ opid k _ (h3 opid hopt)]
            rfl)
          (by
            intro o pOld h hone2 hoo2 hold
            have ho : o = opid := by rw [hopt] at h; exact (Option.some.inj h).symm
            rw [ho] at hold ⊢
            show aGet _ _ = _
            rw [aGet_aModify_ne _ pid opid _ (by rw [← ho]; exact hone2),
              aGet_aModify_ne _ oid opid _ (by rw [← ho]; exact hoo2),
              aGet_aModify_self, show aGet store opid = some pOld from hold]
            simp only [Option.map_some']
            rw [jsSplice1_idxOfZ_of_mem pOld.children oid (hmem_old pOld hold)])
          (by
            intro o h hold
            have ho : o = opid := by rw [hopt] at h; exact (Option.some.inj h).symm
            rw [ho] at hold ⊢
            show aGet _ _ = _
            rw [aGet_aModify_ne _ pid opid _ hone, aGet_aModify_ne _ oid opid _ hoo,
              aGet_aModify_self, show aGet store opid = none from hold]
            rfl)
        refine ⟨hmain.1, hmain.2.1, ?_, ?_, hmain.2.2.2⟩
        · intro o h hone2
          exact hmain.2.2.1 o (by rw [hopt]; exact h) hone2
        · intro _
          simp only [childrenOf, hg_pid]
      | some i =>
        have hupd2 : applyYjsUpdateParent store yStore oid
            = aModify (aModify (aModify store opid
                (fun p => { p with children := jsSplice1 p.children (idxOfZ p.children oid) }))
                oid (fun o => { o with parent := some pid })) pid
                (fun p => { p with children := jsInsertAt p.children i oid }) := by
          rw [hupd1, setParentAttach_insert _ yStore oid pid _ parent h1pid hnm, hidx]
        rw [hupd2]
        have hg_pid : getById (aModify (aModify (aModify store opid
              (fun p => { p with children := jsSplice1 p.children (idxOfZ p.children oid) }))
              oid (fun o => { o with parent := some pid })) pid
            (fun p => { p with children := jsInsertAt p.children i oid })) pid
            = some { parent with children := jsInsertAt parent.children i oid } := by
          show aGet _ _ = _
          rw [aGet_aModify_self, aGet_aModify_ne _ oid pid _ hpo,
            show aGet _ pid = some parent from h1pid]
          rfl
        have hmain := bicond_after_reparent store
          (aModify (aModify (aModify store opid
              (fun p => { p with children := jsSplice1 p.children (idxOfZ p.children oid) }))
              oid (fun o => { o with parent := some pid })) pid
            (fun p => { p with children := jsInsertAt p.children i oid }))
          oid pid obj parent (jsInsertAt parent.children i oid) hinv hnodup hobj hparent hpo
          (by rw [hopt]; simp [hoo])
          (by rw [storeKeys_aModify, storeKeys_aModify, storeKeys_aModify])
          (by
            show aGet _ _ = _
            rw [aGet_aModify_ne _ pid oid _ (Ne.symm hpo), aGet_aModify_self,
              show aGet _ oid = some obj from h1oid]
            rfl)
          hg_pid
          (fun x => mem_jsInsertAt parent.children i oid x)
          (by
            intro k h1 h2 h3
            show aGet _ _ = _
            rw [aGet_aModify_ne _ pid k _ h2, aGet_aModify_ne _ oid k _ h1,
              aGet_aModify_ne _ opid k _ (h3 opid hopt)]
            rfl)
          (by
            intro o pOld h hone2 hoo2 hold
            have ho : o = opid := by rw [hopt] at h; exact (Option.some.inj h).symm
            rw [ho] at hold ⊢
            show aGet _ _ = _
            rw [aGet_aModify_ne _ pid opid _ (by rw [← ho]; exact hone2),
              aGet_aModify_ne _ oid opid _ (by rw [← ho]; exact hoo2),
              aGet_aModify_self, show aGet store opid = some pOld from hold]
            simp only [Option.map_some']
            rw [jsSplice1_idxOfZ_of_mem pOld.children oid (hmem_old pOld hold)])
          (by
            intro o h hold
            have ho : o = opid := by rw [hopt] at h; exact (Option.some.inj h).symm
            rw [ho] at hold ⊢
            show aGet _ _ = _
            rw [aGet_aModify_ne _ pid opid _ hone, aGet_aModify_ne _ oid opid _ hoo,
              aGet_aModify_self, show aGet store opid = none from hold]
            rfl)
        refine ⟨hmain.1, hmain.2.1, ?_, ?_, hmain.2.2.2⟩
        · intro o h hone2
          exact hmain.2.2.1 o (by rw [hopt]; exact h) hone2
        · intro _
          simp only [childrenOf, hg_pid]

/-- Witness for C1: the replicated map reparents `A` from `P` to `Q`;
afterwards `A`'s back reference is `Q`, `A` is in `Q`'s children and no
longer in `P`'s, and the parent/children biconditional holds across the
store. -/
theorem updateParent_reparent_bicond_witness :
    parentOf (applyYjsUpdateParent fixStoreC1 fixYC1 "A") "A" = some "Q" ∧
    "A" ∈ childrenOf (applyYjsUpdateParent fixStoreC1 fixYC1 "A") "Q" ∧
    "A" ∉ childrenOf (applyYjsUpdateParent fixStoreC1 fixYC1 "A") "P" ∧
    bicondInv (applyYjsUpdateParent fixStoreC1 fixYC1 "A") := by
  have h := updateParent_reparent_bicond fixStoreC1 fixYC1 "A" "Q"
    { id := "A", parent := some "P" }
    [("id", Value.str "A"), ("parent", Value.str "Q"), ("parent:order", Value.num 0)]
    { id := "Q" }
    (by decide) (by decide) (by decide) (by decide) (by decide) (by decide)
    (by decide) (by decide)
  exact ⟨h.1, h.2.1, h.2.2.1 "P" (by decide) (by decide), h.2.2.2.2⟩
